import Mathlib

/-!
# strutil: a verification development

Shallow embedding of `src/info.go` and `src/modify.go`.

* A Go `string` is a finite sequence of bytes: `Bytes := List Nat`, each
  element standing for one byte.  Where a result depends on the elements being
  real bytes the hypothesis `IsBytes s` (every element `< 256`) is explicit.
* Go `int` arguments that may be negative are `Int`; lengths, byte offsets and
  counters that only grow from `0` are `Nat`.
* A Go panic is the `Except.error` branch of `Except Panic α`.
* `unicode/utf8` is modelled after the Go standard library
  (`DecodeRuneInString`, `EncodeRune`, `RuneCountInString`, and the
  `for i, r := range s` statement, which decodes exactly like
  `DecodeRuneInString`).
* `unicode.IsLetter` / `unicode.IsDigit` are decided by the standard library
  for Latin-1 as written below; the tables for code points above Latin-1 are
  a parameter (`UnicodeTables`).
* Package `strings` is modelled after the Go standard library as well:
  `Split`, `Join`, and the `Replacer` built by `NewReplacer` (its lookup takes
  the first `old` string in argument order that matches at a position, and
  `Replace` scans the string from left to right).
* Function arguments (`fn` of `MapLines`) are functions without side effects.
-/

namespace Strutil

/-- A Go string: its bytes in order. -/
abbrev Bytes := List Nat

/-- Every element of the sequence is a byte. -/
def IsBytes (s : Bytes) : Prop := ∀ b ∈ s, b < 256

instance (s : Bytes) : Decidable (IsBytes s) := by
  unfold IsBytes; infer_instance

/-! ## Errors and panics -/

/-- The five `fmt.Errorf` sites of `SafeSubstring`, with their arguments. -/
inductive SubstrError where
  /-- `start (%d) is out of range` -/
  | startOutOfRange (start : Int)
  /-- `end (%d) cannot be equal to or smaller than start (%d)` -/
  | endNotAfterStart (end_ start : Int)
  /-- `end (%d) is out of range` -/
  | endOutOfRange (end_ : Int)
  /-- `start (%d) is out of range (%d)` -/
  | startOutOfRangeOf (start : Int) (runeIndex : Nat)
  /-- `end (%d) is out of range (%d)` -/
  | endOutOfRangeOf (end_ : Int) (runeIndex : Nat)
  deriving DecidableEq, Repr

/-- Ways a call can panic. -/
inductive Panic where
  /-- `panic(err)` in `Substring` -/
  | ofError (e : SubstrError)
  /-- run-time panic: slice bounds out of range -/
  | sliceBounds
  /-- run-time panic: index out of range -/
  | indexRange
  /-- `panic(fmt.Sprintf("start (%d) is out of range (%d)", start, size))` in `Splice` -/
  | spliceStart (start : Int) (size : Nat)
  /-- `panic(fmt.Sprintf("end (%d) is out of range (%d)", end, size))` in `Splice` -/
  | spliceEnd (end_ : Int) (size : Nat)
  deriving DecidableEq, Repr

deriving instance DecidableEq for Except

/-! ## Go slice expressions -/

/-- The slice expression `s[lo:]`; panics unless `0 ≤ lo ≤ len(s)`. -/
def sliceFrom {α : Type} (s : List α) (lo : Int) : Except Panic (List α) :=
  if 0 ≤ lo ∧ lo ≤ (s.length : Int) then .ok (s.drop lo.toNat) else .error .sliceBounds

/-- The slice expression `s[lo:hi]`; panics unless `0 ≤ lo ≤ hi ≤ len(s)`. -/
def sliceFromTo {α : Type} (s : List α) (lo hi : Int) : Except Panic (List α) :=
  if 0 ≤ lo ∧ lo ≤ hi ∧ hi ≤ (s.length : Int) then
    .ok ((s.take hi.toNat).drop lo.toNat)
  else .error .sliceBounds

/-- The slice expression `s[:hi]`; panics unless `0 ≤ hi ≤ len(s)`. -/
def sliceTo {α : Type} (s : List α) (hi : Int) : Except Panic (List α) :=
  if 0 ≤ hi ∧ hi ≤ (s.length : Int) then .ok (s.take hi.toNat) else .error .sliceBounds

/-! ## `unicode/utf8` -/

/-- `utf8.RuneError`, U+FFFD. -/
def RuneError : Nat := 0xFFFD
/-- `utf8.RuneSelf`. -/
def RuneSelf : Nat := 0x80
/-- `utf8.MaxRune`. -/
def MaxRune : Nat := 0x10FFFF

def surrogateMin : Nat := 0xD800
def surrogateMax : Nat := 0xDFFF
def rune1Max : Nat := 0x7F
def rune2Max : Nat := 0x7FF
def rune3Max : Nat := 0xFFFF

def t2 : Nat := 0xC0
def t3 : Nat := 0xE0
def t4 : Nat := 0xF0
def tx : Nat := 0x80
def maskx : Nat := 0x3F
def mask2 : Nat := 0x1F
def mask3 : Nat := 0x0F
def mask4 : Nat := 0x07
def locb : Nat := 0x80
def hicb : Nat := 0xBF

/-- Entry `xx` of the table `first`: invalid, size 1. -/
def xx : Nat := 0xF1
/-- Entry `as` of the table `first`: ASCII, size 1. -/
def as_ : Nat := 0xF0

/-- The table `first` of `unicode/utf8`: information about the first byte of
an encoding (low 3 bits: size, high 4 bits: index into `acceptRanges`). -/
def first (b : Nat) : Nat :=
  if b < 0x80 then as_
  else if b < 0xC2 then xx
  else if b < 0xE0 then 0x02
  else if b = 0xE0 then 0x13
  else if b < 0xED then 0x03
  else if b = 0xED then 0x23
  else if b < 0xF0 then 0x03
  else if b = 0xF0 then 0x34
  else if b < 0xF4 then 0x04
  else if b = 0xF4 then 0x44
  else xx

/-- The table `acceptRanges` of `unicode/utf8`: allowed range `(lo, hi)` of
the second byte. -/
def acceptRanges (k : Nat) : Nat × Nat :=
  match k with
  | 0 => (locb, hicb)
  | 1 => (0xA0, hicb)
  | 2 => (locb, 0x9F)
  | 3 => (0x90, hicb)
  | 4 => (locb, 0x8F)
  | _ => (0, 0)

/-- `utf8.DecodeRuneInString`: the first rune of `s` and its width in bytes.
An empty `s` gives `(RuneError, 0)`, an invalid encoding `(RuneError, 1)`. -/
def DecodeRuneInString (s : Bytes) : Nat × Nat :=
  let n := s.length
  if n < 1 then (RuneError, 0) else
  let s0 := s.getD 0 0
  let x := first s0
  if x ≥ as_ then
    -- `mask := rune(x) << 31 >> 31` is all ones for `xx` and zero for `as`
    (if x % 2 = 0 then s0 else RuneError, 1)
  else
  let sz := x % 8
  let accept := acceptRanges (x / 16)
  if n < sz then (RuneError, 1) else
  let s1 := s.getD 1 0
  if s1 < accept.1 ∨ accept.2 < s1 then (RuneError, 1) else
  if sz ≤ 2 then ((s0 &&& mask2) <<< 6 ||| (s1 &&& maskx), 2) else
  let s2 := s.getD 2 0
  if s2 < locb ∨ hicb < s2 then (RuneError, 1) else
  if sz ≤ 3 then ((s0 &&& mask3) <<< 12 ||| (s1 &&& maskx) <<< 6 ||| (s2 &&& maskx), 3) else
  let s3 := s.getD 3 0
  if s3 < locb ∨ hicb < s3 then (RuneError, 1) else
  ((s0 &&& mask4) <<< 18 ||| (s1 &&& maskx) <<< 12 ||| (s2 &&& maskx) <<< 6 ||| (s3 &&& maskx), 4)

/-- The iterations of `for i, r := range s`, given that `fuel` bounds the
number of runes left and `i` is the byte offset of `s` in the whole string:
the pairs `(i, r)` in order. -/
def rangeFrom : Nat → Bytes → Nat → List (Nat × Nat)
  | 0, _, _ => []
  | fuel + 1, s, i =>
    if s.length = 0 then [] else
    let d := DecodeRuneInString s
    (i, d.1) :: rangeFrom fuel (s.drop d.2) (i + d.2)

/-- The iterations `(i, r)` of `for i, r := range s`: byte offset and rune.
Every rune takes at least one byte, so `len(s)` iterations are enough. -/
def rangeStr (s : Bytes) : List (Nat × Nat) := rangeFrom s.length s 0

/-- `utf8.RuneCountInString`: the number of runes in `s`; erroneous and short
encodings count as single runes of width 1 byte. -/
def RuneCountInString (s : Bytes) : Nat := (rangeStr s).length

/-- `UTF8Len` (info.go:12), an alias of `utf8.RuneCountInString`. -/
def UTF8Len (s : Bytes) : Nat := RuneCountInString s

/-! ## info.go: `SafeSubstring`, `Substring` -/

/-- The `for i := range str` loop of `SafeSubstring` (info.go:46-57) over the
remaining byte offsets.  `Sum.inl` is a `return` from inside the loop,
`Sum.inr (startByte, runeIndex)` the state when the loop ends. -/
def substrLoop (str : Bytes) (start end_ : Int) :
    List Nat → Int → Nat → Sum (Except Panic (Bytes × Option SubstrError)) (Int × Nat)
  | [], startByte, runeIndex => .inr (startByte, runeIndex)
  | i :: rest, startByte, runeIndex =>
    let startByte1 : Int := if (runeIndex : Int) = start then (i : Int) else startByte
    if (runeIndex : Int) = start ∧ end_ = 0 then
      .inl ((sliceFrom str startByte1).map (fun r => (r, none)))
    else if end_ ≠ 0 ∧ (runeIndex : Int) = end_ then
      .inl ((sliceFromTo str startByte1 i).map (fun r => (r, none)))
    else substrLoop str start end_ rest startByte1 (runeIndex + 1)

/-- `SafeSubstring` (info.go:33-68).  The Go result `(string, error)` is the
pair `(string, Option SubstrError)`, `none` standing for a nil error. -/
def SafeSubstring (str : Bytes) (start end_ : Int) : Except Panic (Bytes × Option SubstrError) :=
  if start < 0 ∨ start ≥ (str.length : Int) then
    .ok ([], some (.startOutOfRange start))
  else if end_ ≠ 0 ∧ end_ ≤ start then
    .ok ([], some (.endNotAfterStart end_ start))
  else if end_ > (str.length : Int) then
    .ok ([], some (.endOutOfRange end_))
  else
    match substrLoop str start end_ ((rangeStr str).map Prod.fst) (-1) 0 with
    | .inl ret => ret
    | .inr (startByte, runeIndex) =>
      if startByte < 0 then
        .ok ([], some (.startOutOfRangeOf start runeIndex))
      else if end_ = (runeIndex : Int) then
        (sliceFrom str startByte).map (fun r => (r, none))
      else
        .ok ([], some (.endOutOfRangeOf end_ runeIndex))

/-- `Substring` (info.go:21-27): panics with the error of `SafeSubstring`. -/
def Substring (str : Bytes) (start end_ : Int) : Except Panic Bytes :=
  match SafeSubstring str start end_ with
  | .error p => .error p
  | .ok (res, err) =>
    match err with
    | some e => .error (.ofError e)
    | none => .ok res

/-- `EncodeRune` writes through the slice `buf[size-start:]`: an indexed store
`p[i] = v`, which panics when `i` is out of range. -/
def store (p : Bytes) (i v : Nat) : Except Panic Bytes :=
  if i < p.length then .ok (p.set i v) else .error .indexRange

/-- The bounds check `_ = p[i]`. -/
def boundsCheck (p : Bytes) (i : Nat) : Except Panic Unit :=
  if i < p.length then .ok () else .error .indexRange

/-- The three-byte case of `utf8.EncodeRune`. -/
def encodeRune3 (p : Bytes) (r : Nat) : Except Panic (Bytes × Nat) := do
  boundsCheck p 2
  let p ← store p 0 (t3 ||| ((r >>> 12) % 256))
  let p ← store p 1 (tx ||| (((r >>> 6) % 256) &&& maskx))
  let p ← store p 2 (tx ||| ((r % 256) &&& maskx))
  pure (p, 3)

/-- `utf8.EncodeRune(p, r)`: writes the UTF-8 encoding of `r` into `p` and
returns the number of bytes written (here with the updated `p`).  It panics
when `p` is too short; a rune out of range or a surrogate is written as
`RuneError`.  `byte(x)` is `x % 256`. -/
def EncodeRune (p : Bytes) (r : Nat) : Except Panic (Bytes × Nat) :=
  if r ≤ rune1Max then do
    let p ← store p 0 (r % 256)
    pure (p, 1)
  else if r ≤ rune2Max then do
    boundsCheck p 1
    let p ← store p 0 (t2 ||| ((r >>> 6) % 256))
    let p ← store p 1 (tx ||| ((r % 256) &&& maskx))
    pure (p, 2)
  else if r > MaxRune ∨ (surrogateMin ≤ r ∧ r ≤ surrogateMax) then
    encodeRune3 p RuneError
  else if r ≤ rune3Max then
    encodeRune3 p r
  else do
    boundsCheck p 3
    let p ← store p 0 (t4 ||| ((r >>> 18) % 256))
    let p ← store p 1 (tx ||| (((r >>> 12) % 256) &&& maskx))
    let p ← store p 2 (tx ||| (((r >>> 6) % 256) &&& maskx))
    let p ← store p 3 (tx ||| ((r % 256) &&& maskx))
    pure (p, 4)

/-! ## info.go: `IsASCII` -/

/-- `IsASCII` (info.go:72-80): `setBits` is a `uint8`, so the accumulated OR
is taken modulo 256. -/
def IsASCII (s : Bytes) : Bool :=
  let setBits := s.foldl (fun setBits b => (setBits ||| b) % 256) 0
  decide (setBits < RuneSelf)

/-! ## info.go: `words`, `Words`, `CountWords` -/

/-- `unicode.MaxLatin1`. -/
def MaxLatin1 : Nat := 0xFF

/-- The tables of package `unicode` for code points above Latin-1:
`letter r` is `isExcludingLatin(Letter, r)` and `digit r` is
`isExcludingLatin(Digit, r)`. -/
structure UnicodeTables where
  letter : Nat → Bool
  digit : Nat → Bool

/-- The letters of Latin-1: the entries of `unicode.properties` with a bit of
`pLmask` set. -/
def latin1Letter (r : Nat) : Bool :=
  (0x41 ≤ r && r ≤ 0x5A) || (0x61 ≤ r && r ≤ 0x7A) || r == 0xAA || r == 0xB5 || r == 0xBA ||
  (0xC0 ≤ r && r ≤ 0xD6) || (0xD8 ≤ r && r ≤ 0xF6) || (0xF8 ≤ r && r ≤ 0xFF)

/-- `unicode.IsLetter`. -/
def IsLetter (T : UnicodeTables) (r : Nat) : Bool :=
  if r ≤ MaxLatin1 then latin1Letter r else T.letter r

/-- `unicode.IsDigit`. -/
def IsDigit (T : UnicodeTables) (r : Nat) : Bool :=
  if r ≤ MaxLatin1 then (0x30 ≤ r && r ≤ 0x39) else T.digit r

def wordRune : Nat := 0
def wordPuncRune : Nat := 1
def nonWordRune : Nat := 2

/-- `wordPuncRunes` (info.go:105): the runes of `'`, `-` and `_`. -/
def wordPuncRunes : List Nat := [0x27, 0x2D, 0x5F]

/-- `inWordPuncRune` (info.go:107-114). -/
def inWordPuncRune (r : Nat) : Bool := wordPuncRunes.any (fun p => r == p)

/-- The first `switch` of the loop of `words` (info.go:130-138). -/
def runeCat (T : UnicodeTables) (r : Nat) : Nat :=
  if IsLetter T r || IsDigit T r then wordRune
  else if inWordPuncRune r then wordPuncRune
  else nonWordRune

/-- The variables of `words`. -/
structure WordsState where
  arr : List Bytes
  prevCat : Nat
  lastStart : Int
  count : Nat
  deriving DecidableEq, Repr

/-- One iteration of the loop of `words` (info.go:128-154). -/
def wordsStep (T : UnicodeTables) (str : Bytes) (onlyCount : Bool) (st : WordsState)
    (ir : Nat × Nat) : Except Panic WordsState :=
  let i := ir.1
  let cat := runeCat T ir.2
  if cat = wordRune ∧ st.prevCat ≠ wordRune ∧ st.lastStart = -1 then
    .ok { st with lastStart := (i : Int), prevCat := cat }
  else if cat = nonWordRune ∧ (st.prevCat = wordRune ∨ st.prevCat = wordPuncRune) ∧
      st.lastStart ≥ 0 then
    if !onlyCount then
      match sliceFromTo str st.lastStart (i : Int) with
      | .error e => .error e
      | .ok w => .ok { arr := st.arr ++ [w], prevCat := cat, lastStart := -1, count := st.count + 1 }
    else
      .ok { st with prevCat := cat, lastStart := -1, count := st.count + 1 }
  else
    .ok { st with prevCat := cat }

/-- The loop of `words` over the remaining iterations. -/
def wordsLoop (T : UnicodeTables) (str : Bytes) (onlyCount : Bool) :
    List (Nat × Nat) → WordsState → Except Panic WordsState
  | [], st => .ok st
  | ir :: rest, st =>
    match wordsStep T str onlyCount st ir with
    | .error e => .error e
    | .ok st1 => wordsLoop T str onlyCount rest st1

/-- `words` (info.go:119-163). -/
def words (T : UnicodeTables) (str : Bytes) (onlyCount : Bool) :
    Except Panic (List Bytes × Nat) :=
  match wordsLoop T str onlyCount (rangeStr str) ⟨[], nonWordRune, -1, 0⟩ with
  | .error e => .error e
  | .ok st =>
    if st.lastStart ≥ 0 then
      if !onlyCount then
        match sliceFrom str st.lastStart with
        | .error e => .error e
        | .ok w => .ok (st.arr ++ [w], st.count + 1)
      else .ok (st.arr, st.count + 1)
    else .ok (st.arr, st.count)

/-- `CountWords` (info.go:85-88). -/
def CountWords (T : UnicodeTables) (str : Bytes) : Except Panic Nat :=
  (words T str true).map Prod.snd

/-- `Words` (info.go:93-96). -/
def Words (T : UnicodeTables) (str : Bytes) : Except Panic (List Bytes) :=
  (words T str false).map Prod.fst

/-! ## modify.go: `Reverse` -/

/-- The loop of `Reverse` (modify.go:14-18).  Every iteration advances
`start` by at least one byte, so `fuel = size` iterations are enough
(`reverseLoop_fuel`). -/
def reverseLoop (s : Bytes) (size : Nat) : Nat → Nat → Bytes → Except Panic Bytes
  | 0, _, buf => .ok buf
  | fuel + 1, start, buf =>
    if start < size then
      let d := DecodeRuneInString (s.drop start)
      let start := start + d.2
      match sliceFrom buf ((size : Int) - (start : Int)) with
      | .error e => .error e
      | .ok p =>
        match EncodeRune p d.1 with
        | .error e => .error e
        | .ok (p1, _) => reverseLoop s size fuel start (buf.take (size - start) ++ p1)
    else .ok buf

/-- `Reverse` (modify.go:11-20). -/
def Reverse (s : Bytes) : Except Panic Bytes :=
  let size := s.length
  let buf := List.replicate size 0
  reverseLoop s size size 0 buf

/-! ## Notions used to state the properties -/

def rune2 (s0 s1 : Nat) : Nat := (s0 &&& mask2) <<< 6 ||| (s1 &&& maskx)
def rune3 (s0 s1 s2 : Nat) : Nat := (s0 &&& mask3) <<< 12 ||| (s1 &&& maskx) <<< 6 ||| (s2 &&& maskx)
def rune4 (s0 s1 s2 s3 : Nat) : Nat :=
  (s0 &&& mask4) <<< 18 ||| (s1 &&& maskx) <<< 12 ||| (s2 &&& maskx) <<< 6 ||| (s3 &&& maskx)

/-- The body of `DecodeRuneInString` as a function of the length and the first four bytes. -/
def decodeCore (n s0 s1 s2 s3 : Nat) : Nat × Nat :=
  if n < 1 then (RuneError, 0) else
  let x := first s0
  if x ≥ as_ then
    (if x % 2 = 0 then s0 else RuneError, 1)
  else
  let sz := x % 8
  let accept := acceptRanges (x / 16)
  if n < sz then (RuneError, 1) else
  if s1 < accept.1 ∨ accept.2 < s1 then (RuneError, 1) else
  if sz ≤ 2 then (rune2 s0 s1, 2) else
  if s2 < locb ∨ hicb < s2 then (RuneError, 1) else
  if sz ≤ 3 then (rune3 s0 s1 s2, 3) else
  if s3 < locb ∨ hicb < s3 then (RuneError, 1) else
  (rune4 s0 s1 s2 s3, 4)

/-- A well-formed UTF-8 encoding of one code point (Unicode, table 3-7). -/
def IsEncoding : Bytes → Prop
  | [a] => a < 0x80
  | [a, b] => 0xC2 ≤ a ∧ a < 0xE0 ∧ 0x80 ≤ b ∧ b ≤ 0xBF
  | [a, b, c] => 0xE0 ≤ a ∧ a < 0xF0 ∧ (a = 0xE0 → 0xA0 ≤ b) ∧ 0x80 ≤ b ∧
      (a = 0xED → b ≤ 0x9F) ∧ b ≤ 0xBF ∧ 0x80 ≤ c ∧ c ≤ 0xBF
  | [a, b, c, d] => 0xF0 ≤ a ∧ a < 0xF5 ∧ (a = 0xF0 → 0x90 ≤ b) ∧ 0x80 ≤ b ∧
      (a = 0xF4 → b ≤ 0x8F) ∧ b ≤ 0xBF ∧ 0x80 ≤ c ∧ c ≤ 0xBF ∧ 0x80 ≤ d ∧ d ≤ 0xBF
  | _ => False

/-- The code point of a well-formed encoding. -/
def encRune : Bytes → Nat
  | [a] => a
  | [a, b] => rune2 a b
  | [a, b, c] => rune3 a b c
  | [a, b, c, d] => rune4 a b c d
  | _ => RuneError

/-- Valid UTF-8: a concatenation of well-formed encodings. -/
def ValidUTF8 (s : Bytes) : Prop := ∃ L : List Bytes, (∀ c ∈ L, IsEncoding c) ∧ s = L.flatten

/-- No prefix of `s` is a well-formed encoding. -/
def NoEncodingPrefix (s : Bytes) : Prop := ∀ c t, s = c ++ t → ¬ IsEncoding c

/-- The byte segments of the successive runes of `s` (fuel bounds their number). -/
def runeBytesFrom : Nat → Bytes → List Bytes
  | 0, _ => []
  | fuel + 1, s =>
    if s.length = 0 then [] else
    let d := DecodeRuneInString s
    s.take d.2 :: runeBytesFrom fuel (s.drop d.2)

/-- The code points of `s` as byte segments: element `k` is the bytes of code point `k`. -/
def runeBytes (s : Bytes) : List Bytes := runeBytesFrom s.length s

/-- The code points of `s`, the conversion `[]rune(s)`. -/
def runes (s : Bytes) : List Nat := (rangeStr s).map Prod.snd

/-- The iterations of `for i, r := range s` when `s` starts at byte offset `i`. -/
def rangeAt (s : Bytes) (i : Nat) : List (Nat × Nat) := rangeFrom s.length s i

/-- The byte offset at which code point `k` of `s` begins (`len(s)` from the count on). -/
def runeOffset (s : Bytes) (k : Nat) : Nat := ((runeBytes s).take k).flatten.length

/-- The byte offsets visited by `for i := range s`. -/
def rangeOffsets (s : Bytes) : List Nat := (rangeStr s).map Prod.fst

/-- The code points `a, ..., b-1` of `s`, as bytes. -/
def runeSlice (s : Bytes) (a b : Nat) : Bytes := (((runeBytes s).drop a).take (b - a)).flatten

/-- What `SafeSubstring` does once the three checks on entry have passed. -/
def afterLoop (s : Bytes) (start end_ : Int) :
    Sum (Except Panic (Bytes × Option SubstrError)) (Int × Nat) →
      Except Panic (Bytes × Option SubstrError)
  | .inl ret => ret
  | .inr (startByte, runeIndex) =>
    if startByte < 0 then
      .ok ([], some (.startOutOfRangeOf start runeIndex))
    else if end_ = (runeIndex : Int) then
      (sliceFrom s startByte).map (fun r => (r, none))
    else
      .ok ([], some (.endOutOfRangeOf end_ runeIndex))

/-- The state of the counting run that corresponds to a state of the listing run. -/
def countState (st : WordsState) : WordsState := { st with arr := [] }

/-- The tokens joined by a single space, `strings.Join(ts, " ")`. -/
def joinSpace : List Bytes → Bytes
  | [] => []
  | [t] => t
  | t :: rest => t ++ 0x20 :: joinSpace rest

/-- A letter or a digit. -/
def IsWordChar (T : UnicodeTables) (r : Nat) : Prop := IsLetter T r = true ∨ IsDigit T r = true

instance (T : UnicodeTables) (r : Nat) : Decidable (IsWordChar T r) := by
  unfold IsWordChar; infer_instance

/-- One of the punctuation marks `'`, `-` and `_`. -/
def IsWordPunct (r : Nat) : Prop := r = 0x27 ∨ r = 0x2D ∨ r = 0x5F

instance (r : Nat) : Decidable (IsWordPunct r) := by
  unfold IsWordPunct; infer_instance

/-- A separator: neither a letter, nor a digit, nor one of `'`, `-`, `_`. -/
def IsSeparator (T : UnicodeTables) (r : Nat) : Prop := ¬ IsWordChar T r ∧ ¬ IsWordPunct r

instance (T : UnicodeTables) (r : Nat) : Decidable (IsSeparator T r) := by
  unfold IsSeparator; infer_instance

/-- A token: non-empty, its first code point is a letter or digit, and all its code points
are letters, digits or one of `'`, `-`, `_`. -/
def IsToken (T : UnicodeTables) (t : Bytes) : Prop :=
  t ≠ [] ∧ (∀ r ∈ (runes t).head?, IsWordChar T r) ∧
    ∀ r ∈ runes t, IsWordChar T r ∨ IsWordPunct r

instance (T : UnicodeTables) (t : Bytes) : Decidable (IsToken T t) := by
  unfold IsToken; infer_instance

/-- The part of `words` after the loop (info.go:156-162), in the listing mode. -/
def wordsFinish (str : Bytes) (st : WordsState) : Except Panic (List Bytes × Nat) :=
  if st.lastStart ≥ 0 then
    match sliceFrom str st.lastStart with
    | .error e => .error e
    | .ok w => .ok (st.arr ++ [w], st.count + 1)
  else .ok (st.arr, st.count)

/-- The listing run of `words` from a state `st` over the remaining iterations `L`. -/
def wordsFrom (T : UnicodeTables) (str : Bytes) (L : List (Nat × Nat)) (st : WordsState) :
    Except Panic (List Bytes × Nat) :=
  match wordsLoop T str false L st with
  | .error e => .error e
  | .ok st1 => wordsFinish str st1

/-- Tables with no letters or digits above Latin-1, to evaluate examples. -/
def latin1Tables : UnicodeTables := ⟨fun _ => false, fun _ => false⟩

/-! ## Conversions between strings and rune slices -/

/-- The bytes of `string(rune(r))`: the encoding `utf8.EncodeRune` writes for `r` into a
buffer of `utf8.UTFMax = 4` bytes (a surrogate or a value above `MaxRune` gives the
encoding of U+FFFD). -/
def encodeRuneBytes (r : Nat) : Bytes :=
  match EncodeRune [0, 0, 0, 0] r with
  | .ok (p, n) => p.take n
  | .error _ => []

/-- The conversion `string(rs)` of a rune slice: the concatenation of the encodings of
its runes. -/
def stringOfRunes (rs : List Nat) : Bytes := (rs.map encodeRuneBytes).flatten

/-! ## modify.go: `Splice` -/

/-- `Splice` (modify.go:48-61).  `[]rune(str)` is `runes str`. -/
def Splice (str newStr : Bytes) (start end_ : Int) : Except Panic Bytes :=
  if str = [] then .ok str
  else
    let runes := runes str
    let size := runes.length
    if start < 0 ∨ start > (size : Int) - 1 then .error (.spliceStart start size)
    else if end_ ≤ start ∨ end_ > (size : Int) then .error (.spliceEnd end_ size)
    else
      match sliceTo runes start with
      | .error e => .error e
      | .ok before =>
        match sliceFrom runes end_ with
        | .error e => .error e
        | .ok after => .ok (stringOfRunes before ++ newStr ++ stringOfRunes after)

/-! ## Package `strings` -/

/-- `strings.HasPrefix(s, prefix)`. -/
def HasPrefix (s pre : Bytes) : Bool := pre.isPrefixOf s

/-- `strings.Index(s, sep)`: the index of the first instance of `sep` in `s`, `none` for
Go's `-1`. -/
def Index : Bytes → Bytes → Option Nat
  | [], sep => if HasPrefix [] sep then some 0 else none
  | b :: t, sep => if HasPrefix (b :: t) sep then some 0 else (Index t sep).map (· + 1)

/-- The loop of `strings.genSplit` for a non-empty separator: cut at the first instance
of `sep` until there is none.  (Go bounds the loop by `Count(s, sep)`, the number of
instances it will find.) -/
def splitLoop (sep : Bytes) : Nat → Bytes → List Bytes
  | 0, s => [s]
  | fuel + 1, s =>
    match Index s sep with
    | none => [s]
    | some m => s.take m :: splitLoop sep fuel (s.drop (m + sep.length))

/-- `strings.Split(s, sep)`.  With an empty separator Go splits after each UTF-8
sequence; otherwise at every instance of `sep`, of which there are at most `len(s)`. -/
def Split (s sep : Bytes) : List Bytes :=
  if sep = [] then runeBytes s else splitLoop sep s.length s

/-- `strings.Join(elems, sep)`. -/
def Join : List Bytes → Bytes → Bytes
  | [], _ => []
  | [a], _ => a
  | a :: rest, sep => a ++ sep ++ Join rest sep

/-- The lookup of a `strings.Replacer`: among the `old` strings that are a prefix of `s`
the one given first ("comparisons are done in argument order"), with its replacement;
the empty `old` string is skipped when `ignoreRoot` is set. -/
def replacerLookup (oldnew : List (Bytes × Bytes)) (s : Bytes) (ignoreRoot : Bool) :
    Option (Bytes × Bytes) :=
  oldnew.find? (fun pr => HasPrefix s pr.1 && !(ignoreRoot && pr.1.isEmpty))

/-- The scan of `Replacer.Replace` over the rest `s` of the string: at each position the
lookup decides; a match writes the replacement and skips the matched bytes, no match
copies one byte.  `prevMatchEmpty` says that the previous iteration matched the empty
string at this position. -/
def replaceLoop (oldnew : List (Bytes × Bytes)) : Nat → Bytes → Bool → Bytes
  | 0, s, _ => s
  | fuel + 1, s, prevMatchEmpty =>
    match replacerLookup oldnew s prevMatchEmpty with
    | some (old, new) => new ++ replaceLoop oldnew fuel (s.drop old.length) old.isEmpty
    | none =>
      match s with
      | [] => []
      | b :: t => b :: replaceLoop oldnew fuel t false

/-- `strings.NewReplacer(oldnew...).Replace(s)` for the pairs `(old, new)`.  Every
iteration consumes a byte or turns `prevMatchEmpty` on, so `2 * len(s) + 2` iterations
are enough (`replaceLoop_fuel`). -/
def Replace (oldnew : List (Bytes × Bytes)) (s : Bytes) : Bytes :=
  replaceLoop oldnew (2 * s.length + 2) s false

/-! ## modify.go: `ReplaceAllToOne`, `MapLines` -/

/-- `ReplaceAllToOne` (modify.go:23-32): `arr[i*2] = s` and `arr[i*2+1] = to` are the
pairs `(s, to)` for `s` in `from`, in order. -/
def ReplaceAllToOne (str : Bytes) (from_ : List Bytes) (to_ : Bytes) : Bytes :=
  Replace (from_.map (fun s => (s, to_))) str

/-- `MapLines` (modify.go:37-43), for a function `fn` without side effects. -/
def MapLines (str : Bytes) (fn : Bytes → Bytes) : Bytes :=
  Join ((Split str [0x0A]).map fn) [0x0A]

/-! ## Further notions used to state the properties -/

/-- The string `x` decoded to runes and encoded again, `string([]rune(x))`. -/
def reencode (x : Bytes) : Bytes := stringOfRunes (runes x)

/-- The string `x` with every byte that is not part of a well-formed encoding replaced
by the encoding of U+FFFD. -/
def replaceInvalid (x : Bytes) : Bytes :=
  ((runeBytes x).map (fun c =>
    if DecodeRuneInString c = (RuneError, 1) then [0xEF, 0xBF, 0xBD] else c)).flatten

/-- The pattern `p` occurs in `s` at byte offset `k`. -/
def OccursAt (p s : Bytes) (k : Nat) : Prop := List.IsPrefix p (s.drop k)

/-- `ReplacedAll p to_ s out`: `out` is `s` with every non-overlapping occurrence of `p`,
found scanning from left to right, replaced by `to`, and the text between the
occurrences unchanged. -/
inductive ReplacedAll (p to_ : Bytes) : Bytes → Bytes → Prop where
  /-- no occurrence is left -/
  | done (g : Bytes) (h : ∀ k, ¬ OccursAt p g k) : ReplacedAll p to_ g g
  /-- the leftmost occurrence starts after `g` -/
  | step (g rest out : Bytes) (h : ∀ k, k < g.length → ¬ OccursAt p (g ++ p ++ rest) k)
      (hr : ReplacedAll p to_ rest out) : ReplacedAll p to_ (g ++ p ++ rest) (g ++ to_ ++ out)

/-- The state of the listing run before iteration `k`: the words so far are tokens, and an
open word starts at a code point `j < k` and is a token up to code point `k`. -/
def WordsInv (T : UnicodeTables) (s : Bytes) (k : Nat) (st : WordsState) : Prop :=
  (∀ w ∈ st.arr, IsToken T w) ∧
  (st.lastStart = -1 ∨
    ∃ j, j < k ∧ st.lastStart = (runeOffset s j : Int) ∧ IsToken T (runeSlice s j k) ∧
      (st.prevCat = wordRune ∨ st.prevCat = wordPuncRune))

/-! # Properties

## The decoder `DecodeRuneInString` -/

theorem decode_eq_core (s : Bytes) :
    DecodeRuneInString s = decodeCore s.length (s.getD 0 0) (s.getD 1 0) (s.getD 2 0) (s.getD 3 0) := rfl

/-- The table `first` by ranges of the byte. -/
theorem first_eq (b : Nat) :
    (b < 0x80 → first b = 0xF0) ∧
    (0x80 ≤ b → b < 0xC2 → first b = 0xF1) ∧
    (0xC2 ≤ b → b < 0xE0 → first b = 0x02) ∧
    (b = 0xE0 → first b = 0x13) ∧
    (0xE1 ≤ b → b < 0xED → first b = 0x03) ∧
    (b = 0xED → first b = 0x23) ∧
    (0xEE ≤ b → b < 0xF0 → first b = 0x03) ∧
    (b = 0xF0 → first b = 0x34) ∧
    (0xF1 ≤ b → b < 0xF4 → first b = 0x04) ∧
    (b = 0xF4 → first b = 0x44) ∧
    (0xF5 ≤ b → first b = 0xF1) := by
  unfold first as_ xx
  refine ⟨?_, ?_, ?_, ?_, ?_, ?_, ?_, ?_, ?_, ?_, ?_⟩ <;> intros <;>
    repeat (first | rfl | rw [if_pos (by omega)] | rw [if_neg (by omega)])

theorem decodeCore_one (n s0 s1 s2 s3 : Nat) (hn : 1 ≤ n) (h0 : s0 < 0x80) :
    decodeCore n s0 s1 s2 s3 = (s0, 1) := by
  unfold decodeCore
  simp only [(first_eq s0).1 h0]
  norm_num [as_]
  omega

theorem decodeCore_two (n s0 s1 s2 s3 : Nat) (hn : 2 ≤ n) (h0 : 0xC2 ≤ s0) (h0' : s0 < 0xE0)
    (h1 : 0x80 ≤ s1) (h1' : s1 ≤ 0xBF) :
    decodeCore n s0 s1 s2 s3 = (rune2 s0 s1, 2) := by
  unfold decodeCore
  simp only [(first_eq s0).2.2.1 h0 h0']
  norm_num [as_, acceptRanges, locb, hicb]
  split_ifs <;> first | rfl | (exfalso; omega)

theorem decodeCore_three (n s0 s1 s2 s3 : Nat) (hn : 3 ≤ n) (h0 : 0xE0 ≤ s0) (h0' : s0 < 0xF0)
    (ha : s0 = 0xE0 → 0xA0 ≤ s1) (h1 : 0x80 ≤ s1) (hb : s0 = 0xED → s1 ≤ 0x9F) (h1' : s1 ≤ 0xBF)
    (h2 : 0x80 ≤ s2) (h2' : s2 ≤ 0xBF) :
    decodeCore n s0 s1 s2 s3 = (rune3 s0 s1 s2, 3) := by
  have hf := first_eq s0
  unfold decodeCore
  rcases (by omega : s0 = 0xE0 ∨ (0xE1 ≤ s0 ∧ s0 < 0xED) ∨ s0 = 0xED ∨ (0xEE ≤ s0 ∧ s0 < 0xF0))
    with h | h | h | h
  · simp only [hf.2.2.2.1 h]
    norm_num [as_, acceptRanges, locb, hicb]
    split_ifs <;> first | rfl | (exfalso; omega)
  · simp only [hf.2.2.2.2.1 h.1 h.2]
    norm_num [as_, acceptRanges, locb, hicb]
    split_ifs <;> first | rfl | (exfalso; omega)
  · simp only [hf.2.2.2.2.2.1 h]
    norm_num [as_, acceptRanges, locb, hicb]
    split_ifs <;> first | rfl | (exfalso; omega)
  · simp only [hf.2.2.2.2.2.2.1 h.1 h.2]
    norm_num [as_, acceptRanges, locb, hicb]
    split_ifs <;> first | rfl | (exfalso; omega)

theorem decodeCore_four (n s0 s1 s2 s3 : Nat) (hn : 4 ≤ n) (h0 : 0xF0 ≤ s0) (h0' : s0 < 0xF5)
    (ha : s0 = 0xF0 → 0x90 ≤ s1) (h1 : 0x80 ≤ s1) (hb : s0 = 0xF4 → s1 ≤ 0x8F) (h1' : s1 ≤ 0xBF)
    (h2 : 0x80 ≤ s2) (h2' : s2 ≤ 0xBF) (h3 : 0x80 ≤ s3) (h3' : s3 ≤ 0xBF) :
    decodeCore n s0 s1 s2 s3 = (rune4 s0 s1 s2 s3, 4) := by
  have hf := first_eq s0
  unfold decodeCore
  rcases (by omega : s0 = 0xF0 ∨ (0xF1 ≤ s0 ∧ s0 < 0xF4) ∨ s0 = 0xF4) with h | h | h
  · simp only [hf.2.2.2.2.2.2.2.1 h]
    norm_num [as_, acceptRanges, locb, hicb]
    split_ifs <;> first | rfl | (exfalso; omega)
  · simp only [hf.2.2.2.2.2.2.2.2.1 h.1 h.2]
    norm_num [as_, acceptRanges, locb, hicb]
    split_ifs <;> first | rfl | (exfalso; omega)
  · simp only [hf.2.2.2.2.2.2.2.2.2.1 h]
    norm_num [as_, acceptRanges, locb, hicb]
    split_ifs <;> first | rfl | (exfalso; omega)

theorem decodeCore_invalid (n s0 s1 s2 s3 : Nat) (hn : 1 ≤ n) (h0 : 0x80 ≤ s0)
    (n2 : ¬ (0xC2 ≤ s0 ∧ s0 < 0xE0 ∧ 2 ≤ n ∧ 0x80 ≤ s1 ∧ s1 ≤ 0xBF))
    (n3 : ¬ (0xE0 ≤ s0 ∧ s0 < 0xF0 ∧ 3 ≤ n ∧ (s0 = 0xE0 → 0xA0 ≤ s1) ∧ 0x80 ≤ s1 ∧
        (s0 = 0xED → s1 ≤ 0x9F) ∧ s1 ≤ 0xBF ∧ 0x80 ≤ s2 ∧ s2 ≤ 0xBF))
    (n4 : ¬ (0xF0 ≤ s0 ∧ s0 < 0xF5 ∧ 4 ≤ n ∧ (s0 = 0xF0 → 0x90 ≤ s1) ∧ 0x80 ≤ s1 ∧
        (s0 = 0xF4 → s1 ≤ 0x8F) ∧ s1 ≤ 0xBF ∧ 0x80 ≤ s2 ∧ s2 ≤ 0xBF ∧ 0x80 ≤ s3 ∧ s3 ≤ 0xBF)) :
    decodeCore n s0 s1 s2 s3 = (RuneError, 1) := by
  unfold decodeCore
  rcases (by omega : (0x80 ≤ s0 ∧ s0 < 0xC2) ∨ (0xC2 ≤ s0 ∧ s0 < 0xE0) ∨ s0 = 0xE0 ∨
      (0xE1 ≤ s0 ∧ s0 < 0xED) ∨ s0 = 0xED ∨ (0xEE ≤ s0 ∧ s0 < 0xF0) ∨ s0 = 0xF0 ∨
      (0xF1 ≤ s0 ∧ s0 < 0xF4) ∨ s0 = 0xF4 ∨ 0xF5 ≤ s0) with
    h | h | h | h | h | h | h | h | h | h
  · simp only [(first_eq s0).2.1 h.1 h.2]
    norm_num [as_]
    omega
  · simp only [(first_eq s0).2.2.1 h.1 h.2]
    clear n3 n4
    norm_num [as_, acceptRanges, locb, hicb]
    split_ifs <;> first | rfl | (exfalso; omega)
  · simp only [(first_eq s0).2.2.2.1 h]
    clear n2 n4
    norm_num [as_, acceptRanges, locb, hicb]
    split_ifs <;> first | rfl | (exfalso; omega)
  · simp only [(first_eq s0).2.2.2.2.1 h.1 h.2]
    clear n2 n4
    norm_num [as_, acceptRanges, locb, hicb]
    split_ifs <;> first | rfl | (exfalso; omega)
  · simp only [(first_eq s0).2.2.2.2.2.1 h]
    clear n2 n4
    norm_num [as_, acceptRanges, locb, hicb]
    split_ifs <;> first | rfl | (exfalso; omega)
  · simp only [(first_eq s0).2.2.2.2.2.2.1 h.1 h.2]
    clear n2 n4
    norm_num [as_, acceptRanges, locb, hicb]
    split_ifs <;> first | rfl | (exfalso; omega)
  · simp only [(first_eq s0).2.2.2.2.2.2.2.1 h]
    clear n2 n3
    norm_num [as_, acceptRanges, locb, hicb]
    split_ifs <;> first | rfl | (exfalso; omega)
  · simp only [(first_eq s0).2.2.2.2.2.2.2.2.1 h.1 h.2]
    clear n2 n3
    norm_num [as_, acceptRanges, locb, hicb]
    split_ifs <;> first | rfl | (exfalso; omega)
  · simp only [(first_eq s0).2.2.2.2.2.2.2.2.2.1 h]
    clear n2 n3
    norm_num [as_, acceptRanges, locb, hicb]
    split_ifs <;> first | rfl | (exfalso; omega)
  · simp only [(first_eq s0).2.2.2.2.2.2.2.2.2.2 h]
    norm_num [as_]
    omega

theorem decode_enc_append (c t : Bytes) (h : IsEncoding c) :
    DecodeRuneInString (c ++ t) = (encRune c, c.length) := by
  rw [decode_eq_core]
  match c, h with
  | [a], h =>
    simp only [IsEncoding] at h
    exact decodeCore_one _ _ _ _ _ (by simp) h
  | [a, b], h =>
    simp only [IsEncoding] at h
    obtain ⟨h1, h2, h3, h4⟩ := h
    exact decodeCore_two _ _ _ _ _ (by simp) h1 h2 h3 h4
  | [a, b, c], h =>
    simp only [IsEncoding] at h
    obtain ⟨h1, h2, h3, h4, h5, h6, h7, h8⟩ := h
    exact decodeCore_three _ _ _ _ _ (by simp) h1 h2 h3 h4 h5 h6 h7 h8
  | [a, b, c, d], h =>
    simp only [IsEncoding] at h
    obtain ⟨h1, h2, h3, h4, h5, h6, h7, h8, h9, h10⟩ := h
    exact decodeCore_four _ _ _ _ _ (by simp) h1 h2 h3 h4 h5 h6 h7 h8 h9 h10

theorem decode_invalid (s : Bytes) (hs : s ≠ []) (h : NoEncodingPrefix s) :
    DecodeRuneInString s = (RuneError, 1) := by
  rw [decode_eq_core]
  rcases s with _ | ⟨a, t⟩
  · exact absurd rfl hs
  apply decodeCore_invalid
  · simp
  · simp only [List.getD_cons_zero]
    by_contra hc
    exact h [a] t rfl (by simp only [IsEncoding]; omega)
  · rintro ⟨h1, h2, h3, h4, h5⟩
    rcases t with _ | ⟨b, t⟩
    · simp at h3
    · exact h [a, b] t rfl ⟨h1, h2, h4, h5⟩
  · rintro ⟨h1, h2, h3, h4, h5, h6, h7, h8, h9⟩
    rcases t with _ | ⟨b, _ | ⟨c, t⟩⟩
    · simp at h3
    · simp at h3
    · exact h [a, b, c] t rfl ⟨h1, h2, h4, h5, h6, h7, h8, h9⟩
  · rintro ⟨h1, h2, h3, h4, h5, h6, h7, h8, h9, h10, h11⟩
    rcases t with _ | ⟨b, _ | ⟨c, _ | ⟨d, t⟩⟩⟩
    · simp at h3
    · simp at h3
    · simp at h3
    · exact h [a, b, c, d] t rfl ⟨h1, h2, h4, h5, h6, h7, h8, h9, h10, h11⟩

theorem isEncoding_length {c : Bytes} (h : IsEncoding c) : 1 ≤ c.length ∧ c.length ≤ 4 := by
  rcases c with _ | ⟨a, _ | ⟨b, _ | ⟨c, _ | ⟨d, _ | ⟨e, t⟩⟩⟩⟩⟩ <;> simp [IsEncoding] at h ⊢

theorem isEncoding_ne_nil {c : Bytes} (h : IsEncoding c) : c ≠ [] := by
  intro hc; subst hc; simp [IsEncoding] at h

/-- A well-formed encoding of width one is not `RuneError`. -/
theorem encRune_ne_error {c : Bytes} (h : IsEncoding c) (h1 : c.length = 1) :
    encRune c ≠ RuneError := by
  rcases c with _ | ⟨a, _ | ⟨b, t⟩⟩
  · simp at h1
  · simp only [IsEncoding] at h
    simp only [encRune, RuneError]
    omega
  · simp at h1

/-- Every string either starts with a well-formed encoding or has none as prefix. -/
theorem decode_cases (s : Bytes) (hs : s ≠ []) :
    (∃ c t, s = c ++ t ∧ IsEncoding c ∧ DecodeRuneInString s = (encRune c, c.length)) ∨
    (NoEncodingPrefix s ∧ DecodeRuneInString s = (RuneError, 1)) := by
  by_cases h : ∃ c t, s = c ++ t ∧ IsEncoding c
  · obtain ⟨c, t, hst, hc⟩ := h
    exact Or.inl ⟨c, t, hst, hc, hst ▸ decode_enc_append c t hc⟩
  · right
    have hn : NoEncodingPrefix s := fun c t hst hc => h ⟨c, t, hst, hc⟩
    exact ⟨hn, decode_invalid s hs hn⟩

theorem decode_width (s : Bytes) (hs : s ≠ []) :
    1 ≤ (DecodeRuneInString s).2 ∧ (DecodeRuneInString s).2 ≤ s.length := by
  rcases decode_cases s hs with ⟨c, t, hst, hc, hd⟩ | ⟨_, hd⟩
  · rw [hd]
    have := isEncoding_length hc
    subst hst
    simp only [List.length_append]
    omega
  · rw [hd]
    have : 1 ≤ s.length := by
      rcases s with _ | ⟨a, t⟩
      · exact absurd rfl hs
      · simp
    simpa using this

/-- Truncating a string at or after the end of its first rune leaves that rune unchanged. -/
theorem decode_take (s : Bytes) (m : Nat) (h : (DecodeRuneInString s).2 ≤ m) :
    DecodeRuneInString (s.take m) = DecodeRuneInString s := by
  by_cases hs : s = []
  · subst hs; simp
  rcases decode_cases s hs with ⟨c, t, hst, hc, hd⟩ | ⟨hn, hd⟩
  · rw [hd] at h ⊢
    simp only at h
    subst hst
    rw [List.take_append_eq_append_take, List.take_of_length_le h]
    exact decode_enc_append c _ hc
  · rw [hd] at h ⊢
    simp only at h
    apply decode_invalid
    · rcases s with _ | ⟨a, t⟩
      · exact absurd rfl hs
      · rcases m with _ | m
        · omega
        · simp
    · intro c t hct hc
      refine hn c (t ++ s.drop m) ?_ hc
      rw [← List.append_assoc, ← hct, List.take_append_drop]

/-- A byte that follows the first byte inside a well-formed encoding is a continuation byte. -/
theorem isEncoding_cont {p q : Bytes} {b : Nat} (h : IsEncoding (p ++ b :: q)) (hp : p ≠ []) :
    0x80 ≤ b := by
  rcases p with _ | ⟨p0, _ | ⟨p1, _ | ⟨p2, _ | ⟨p3, p⟩⟩⟩⟩
  · exact absurd rfl hp
  · rcases q with _ | ⟨q0, _ | ⟨q1, _ | ⟨q2, q⟩⟩⟩
    all_goals simp only [List.cons_append, List.nil_append, IsEncoding] at h
    all_goals omega
  · rcases q with _ | ⟨q0, _ | ⟨q1, q⟩⟩
    all_goals simp only [List.cons_append, List.nil_append, IsEncoding] at h
    all_goals omega
  · rcases q with _ | ⟨q0, q⟩
    all_goals simp only [List.cons_append, List.nil_append, IsEncoding] at h
    all_goals omega
  · rcases p with _ | ⟨p4, p⟩
    all_goals simp [IsEncoding] at h

/-- Appending an ASCII byte (and anything after it) does not change the first rune. -/
theorem decode_append_ascii (s t : Bytes) (b : Nat) (hs : s ≠ []) (hb : b < 0x80) :
    DecodeRuneInString (s ++ b :: t) = DecodeRuneInString s := by
  rcases decode_cases s hs with ⟨c, u, hst, hc, hd⟩ | ⟨hn, hd⟩
  · rw [hd]
    subst hst
    rw [List.append_assoc]
    exact decode_enc_append c _ hc
  · rw [hd]
    apply decode_invalid
    · simp
    · intro c u hcu hc
      rcases List.append_eq_append_iff.mp hcu with ⟨a', h1, h2⟩ | ⟨c', h1, h2⟩
      · rcases a' with _ | ⟨x, a'⟩
        · exact hn c [] (by simp [h1]) hc
        · simp only [List.cons_append, List.cons.injEq] at h2
          obtain ⟨rfl, _⟩ := h2
          rw [h1] at hc
          have := isEncoding_cont hc hs
          omega
      · exact hn c c' h1 hc

/-! ## The runes of a string -/

theorem rangeStr_eq_rangeAt (s : Bytes) : rangeStr s = rangeAt s 0 := rfl

theorem drop_width_length_lt (s : Bytes) (hs : s ≠ []) :
    (s.drop (DecodeRuneInString s).2).length < s.length := by
  have := decode_width s hs
  simp only [List.length_drop]
  omega

theorem rangeFrom_fuel (f g : Nat) (s : Bytes) (i : Nat) (hf : s.length ≤ f) (hg : s.length ≤ g) :
    rangeFrom f s i = rangeFrom g s i := by
  induction f generalizing g s i with
  | zero =>
    have : s = [] := List.length_eq_zero.mp (by omega)
    subst this
    cases g <;> simp [rangeFrom]
  | succ f ih =>
    cases g with
    | zero =>
      have : s = [] := List.length_eq_zero.mp (by omega)
      subst this
      simp [rangeFrom]
    | succ g =>
      by_cases hs : s = []
      · subst hs; simp [rangeFrom]
      · have hl := drop_width_length_lt s hs
        have hne : ¬ s.length = 0 := by simpa using hs
        simp only [rangeFrom, hne, if_false]
        rw [ih g _ _ (by omega) (by omega)]

theorem rangeAt_nil (i : Nat) : rangeAt [] i = [] := by
  simp [rangeAt, rangeFrom]

theorem rangeAt_cons (s : Bytes) (i : Nat) (hs : s ≠ []) :
    rangeAt s i = (i, (DecodeRuneInString s).1) ::
      rangeAt (s.drop (DecodeRuneInString s).2) (i + (DecodeRuneInString s).2) := by
  have hl := drop_width_length_lt s hs
  have hne : ¬ s.length = 0 := by simpa using hs
  unfold rangeAt
  obtain ⟨n, hn⟩ : ∃ n, s.length = n + 1 := ⟨s.length - 1, by omega⟩
  rw [hn]
  simp only [rangeFrom, hn, Nat.succ_ne_zero, if_false]
  rw [rangeFrom_fuel n _ _ _ (by omega) (le_refl _)]

theorem runeBytesFrom_fuel (f g : Nat) (s : Bytes) (hf : s.length ≤ f) (hg : s.length ≤ g) :
    runeBytesFrom f s = runeBytesFrom g s := by
  induction f generalizing g s with
  | zero =>
    have : s = [] := List.length_eq_zero.mp (by omega)
    subst this
    cases g <;> simp [runeBytesFrom]
  | succ f ih =>
    cases g with
    | zero =>
      have : s = [] := List.length_eq_zero.mp (by omega)
      subst this
      simp [runeBytesFrom]
    | succ g =>
      by_cases hs : s = []
      · subst hs; simp [runeBytesFrom]
      · have hl := drop_width_length_lt s hs
        have hne : ¬ s.length = 0 := by simpa using hs
        simp only [runeBytesFrom, hne, if_false]
        rw [ih g _ (by omega) (by omega)]

theorem runeBytes_nil : runeBytes [] = [] := by
  simp [runeBytes, runeBytesFrom]

theorem runeBytes_cons (s : Bytes) (hs : s ≠ []) :
    runeBytes s = s.take (DecodeRuneInString s).2 ::
      runeBytes (s.drop (DecodeRuneInString s).2) := by
  have hl := drop_width_length_lt s hs
  unfold runeBytes
  obtain ⟨n, hn⟩ : ∃ n, s.length = n + 1 := ⟨s.length - 1, by omega⟩
  rw [hn]
  simp only [runeBytesFrom, hn, Nat.succ_ne_zero, if_false]
  rw [runeBytesFrom_fuel n _ _ (by omega) (le_refl _)]

/-- Induction along the runes of a string. -/
theorem rune_induction {P : Bytes → Prop} (nil : P [])
    (step : ∀ s, s ≠ [] → P (s.drop (DecodeRuneInString s).2) → P s) : ∀ s, P s := by
  have key : ∀ n, ∀ s : Bytes, s.length = n → P s := by
    intro n
    induction n using Nat.strong_induction_on with
    | _ n ih =>
      intro s h
      by_cases hs : s = []
      · subst hs; exact nil
      · exact step s hs (ih _ (h ▸ drop_width_length_lt s hs) _ rfl)
  exact fun s => key _ s rfl

theorem runeBytes_flatten (s : Bytes) : (runeBytes s).flatten = s := by
  induction s using rune_induction with
  | nil => simp [runeBytes_nil]
  | step s hs ih =>
    rw [runeBytes_cons s hs, List.flatten_cons, ih, List.take_append_drop]

theorem rangeAt_length (s : Bytes) (i : Nat) : (rangeAt s i).length = (runeBytes s).length := by
  induction s using rune_induction generalizing i with
  | nil => simp [runeBytes_nil, rangeAt_nil]
  | step s hs ih =>
    rw [runeBytes_cons s hs, rangeAt_cons s i hs, List.length_cons, List.length_cons, ih]

theorem UTF8Len_eq (s : Bytes) : UTF8Len s = (runeBytes s).length := by
  unfold UTF8Len RuneCountInString
  rw [rangeStr_eq_rangeAt, rangeAt_length]

theorem runes_length (s : Bytes) : (runes s).length = UTF8Len s := by
  simp [runes, UTF8Len, RuneCountInString]

/-- Byte offset of rune `k` in the range loop. -/
theorem rangeAt_offset (s : Bytes) (i k : Nat) (hk : k < (rangeAt s i).length) :
    ((rangeAt s i).map Prod.fst)[k]? = some (i + ((runeBytes s).take k).flatten.length) := by
  induction s using rune_induction generalizing i k with
  | nil => simp [rangeAt_nil] at hk
  | step s hs ih =>
    rw [rangeAt_cons s i hs] at hk ⊢
    rw [runeBytes_cons s hs]
    cases k with
    | zero => simp
    | succ k =>
      have hw := decode_width s hs
      simp only [List.length_cons, Nat.add_lt_add_iff_right] at hk
      simp only [List.map_cons, List.getElem?_cons_succ, List.take_succ_cons, List.flatten_cons,
        List.length_append, List.length_take]
      rw [ih _ _ hk, Nat.min_eq_left hw.2]
      simp [Nat.add_assoc]

theorem runeBytes_ne_nil (s : Bytes) : ∀ c ∈ runeBytes s, c ≠ [] := by
  induction s using rune_induction with
  | nil => simp [runeBytes_nil]
  | step s hs ih =>
    rw [runeBytes_cons s hs]
    intro c hc
    rcases List.mem_cons.mp hc with h | h
    · have hw := decode_width s hs
      subst h
      intro h0
      have := congrArg List.length h0
      simp at this
      rcases this with h | h
      · omega
      · exact hs h
    · exact ih c h

theorem runes_eq_map (s : Bytes) :
    runes s = (runeBytes s).map (fun c => (DecodeRuneInString c).1) := by
  unfold runes
  rw [rangeStr_eq_rangeAt]
  generalize 0 = i
  induction s using rune_induction generalizing i with
  | nil => simp [runeBytes_nil, rangeAt_nil]
  | step s hs ih =>
    rw [runeBytes_cons s hs, rangeAt_cons s i hs, List.map_cons, List.map_cons, ih,
      decode_take s _ (le_refl _)]

/-- Decoding the first `k` runes' bytes gives the first `k` runes. -/
theorem runeBytes_take (s : Bytes) (k : Nat) :
    runeBytes ((runeBytes s).take k).flatten = (runeBytes s).take k := by
  induction s using rune_induction generalizing k with
  | nil => simp [runeBytes_nil]
  | step s hs ih =>
    cases k with
    | zero => simp [runeBytes_nil]
    | succ k =>
      have hw := decode_width s hs
      rw [runeBytes_cons s hs, List.take_succ_cons, List.flatten_cons]
      set w := (DecodeRuneInString s).2 with hwdef
      set X := ((runeBytes (s.drop w)).take k).flatten with hX
      have hpre : X = (s.drop w).take X.length := by
        conv_rhs => rw [← runeBytes_flatten (s.drop w)]
        conv_rhs =>
          rw [← List.take_append_drop k (runeBytes (s.drop w)), List.flatten_append]
        rw [← hX]
        simp
      have hcat : s.take w ++ X = s.take (w + X.length) := by
        rw [List.take_add, ← hpre]
      have hdec : DecodeRuneInString (s.take w ++ X) = DecodeRuneInString s := by
        rw [hcat]
        exact decode_take s _ (by omega)
      have hlen : (s.take w).length = w := by
        rw [List.length_take, Nat.min_eq_left hw.2]
      have hne : s.take w ++ X ≠ [] := by
        intro h0
        have := congrArg List.length h0
        rw [List.length_append, hlen, List.length_nil] at this
        omega
      rw [runeBytes_cons _ hne, hdec, ← hwdef]
      have h1 : (s.take w ++ X).take w = s.take w := by
        rw [List.take_append_eq_append_take, hlen]
        simp
      have h2 : (s.take w ++ X).drop w = X := by
        rw [List.drop_append_eq_append_drop, hlen]
        simp [List.drop_eq_nil_of_le, hlen]
      rw [h1, h2, hX, ih]

theorem runeBytes_drop (s : Bytes) (k : Nat) :
    runeBytes ((runeBytes s).drop k).flatten = (runeBytes s).drop k := by
  induction s using rune_induction generalizing k with
  | nil => simp [runeBytes_nil]
  | step s hs ih =>
    cases k with
    | zero => simp [runeBytes_flatten]
    | succ k =>
      rw [runeBytes_cons s hs, List.drop_succ_cons]
      exact ih k

theorem runeBytes_slice (s : Bytes) (a m : Nat) :
    runeBytes (((runeBytes s).drop a).take m).flatten = ((runeBytes s).drop a).take m := by
  have h := runeBytes_take ((runeBytes s).drop a).flatten m
  rw [runeBytes_drop] at h
  exact h

/-! ## The loop of `SafeSubstring`

### Lists of segments -/

theorem flatten_drop_take {α : Type} (L : List (List α)) (a : Nat) :
    L.flatten.drop (L.take a).flatten.length = (L.drop a).flatten := by
  conv_lhs => rw [← List.take_append_drop a L, List.flatten_append]
  simp

theorem flatten_take_take {α : Type} (L : List (List α)) (b : Nat) :
    L.flatten.take (L.take b).flatten.length = (L.take b).flatten := by
  conv_lhs => rw [← List.take_append_drop b L, List.flatten_append]
  simp

theorem flatten_take_mono {α : Type} (L : List (List α)) (a b : Nat) (h : a ≤ b) :
    (L.take a).flatten.length ≤ (L.take b).flatten.length := by
  have : L.take a = (L.take b).take a := by
    rw [List.take_take, Nat.min_eq_left h]
  rw [this]
  conv_rhs => rw [← List.take_append_drop a (L.take b), List.flatten_append]
  rw [List.length_append]
  exact Nat.le_add_right _ _

theorem flatten_take_le {α : Type} (L : List (List α)) (a : Nat) :
    (L.take a).flatten.length ≤ L.flatten.length := by
  conv_rhs => rw [← List.take_append_drop a L, List.flatten_append]
  rw [List.length_append]
  exact Nat.le_add_right _ _

theorem flatten_slice {α : Type} (L : List (List α)) (a b : Nat) (h : a ≤ b) :
    (L.flatten.take (L.take b).flatten.length).drop (L.take a).flatten.length =
      ((L.drop a).take (b - a)).flatten := by
  rw [flatten_take_take]
  have : L.take a = (L.take b).take a := by
    rw [List.take_take, Nat.min_eq_left h]
  rw [this, flatten_drop_take, List.drop_take]

/-! ### The loop -/

theorem substrLoop_skip (str : Bytes) (start end_ : Int) (pre post : List Nat) (sb : Int)
    (ri : Nat) (h1 : ∀ j, j < pre.length → ((ri + j : Nat) : Int) ≠ start)
    (h2 : end_ = 0 ∨ ∀ j, j < pre.length → ((ri + j : Nat) : Int) ≠ end_) :
    substrLoop str start end_ (pre ++ post) sb ri =
      substrLoop str start end_ post sb (ri + pre.length) := by
  induction pre generalizing ri with
  | nil => simp
  | cons i pre ih =>
    have e1 : ¬ ((ri : Int) = start) := by
      have := h1 0 (by simp)
      simpa using this
    have e2 : ¬ (end_ ≠ 0 ∧ (ri : Int) = end_) := by
      rintro ⟨hne, he⟩
      rcases h2 with h2 | h2
      · exact hne h2
      · have := h2 0 (by simp)
        simp at this
        exact this he
    rw [List.cons_append]
    simp only [substrLoop, e1, e2, false_and, if_false]
    rw [ih (ri + 1)]
    · simp only [List.length_cons]
      congr 1
      omega
    · intro j hj
      have := h1 (j + 1) (by simpa using hj)
      rwa [show ri + (j + 1) = ri + 1 + j by omega] at this
    · rcases h2 with h2 | h2
      · exact Or.inl h2
      · right
        intro j hj
        have := h2 (j + 1) (by simpa using hj)
        rwa [show ri + (j + 1) = ri + 1 + j by omega] at this

theorem runeOffset_le (s : Bytes) (k : Nat) : runeOffset s k ≤ s.length := by
  unfold runeOffset
  conv_rhs => rw [← runeBytes_flatten s]
  exact flatten_take_le _ _

theorem runeOffset_mono (s : Bytes) (a b : Nat) (h : a ≤ b) : runeOffset s a ≤ runeOffset s b :=
  flatten_take_mono _ _ _ h

theorem runeOffset_count (s : Bytes) (k : Nat) (h : UTF8Len s ≤ k) : runeOffset s k = s.length := by
  unfold runeOffset
  rw [UTF8Len_eq] at h
  rw [List.take_of_length_le h, runeBytes_flatten]

theorem UTF8Len_le_length (s : Bytes) : UTF8Len s ≤ s.length := by
  rw [UTF8Len_eq]
  conv_rhs => rw [← runeBytes_flatten s]
  have h := runeBytes_ne_nil s
  generalize runeBytes s = L at h
  induction L with
  | nil => simp
  | cons c L ih =>
    have hc : 1 ≤ c.length := by
      have := h c (by simp)
      rcases c with _ | ⟨x, c⟩
      · exact absurd rfl this
      · simp
    have := ih (fun d hd => h d (by simp [hd]))
    simp only [List.length_cons, List.flatten_cons, List.length_append]
    omega

theorem rangeOffsets_length (s : Bytes) : (rangeOffsets s).length = UTF8Len s := by
  simp [rangeOffsets, UTF8Len, RuneCountInString]

theorem rangeOffsets_get (s : Bytes) (k : Nat) (hk : k < UTF8Len s) :
    (rangeOffsets s)[k]? = some (runeOffset s k) := by
  unfold rangeOffsets
  rw [rangeStr_eq_rangeAt, rangeAt_offset s 0 k]
  · simp [runeOffset]
  · rw [rangeAt_length, ← UTF8Len_eq]; exact hk

theorem rangeOffsets_split (s : Bytes) (k : Nat) (hk : k < UTF8Len s) :
    rangeOffsets s = (rangeOffsets s).take k ++ runeOffset s k :: (rangeOffsets s).drop (k + 1) := by
  have hl : k < (rangeOffsets s).length := by rw [rangeOffsets_length]; exact hk
  have hg := rangeOffsets_get s k hk
  rw [List.getElem?_eq_getElem hl] at hg
  have hg' : (rangeOffsets s)[k] = runeOffset s k := Option.some.inj hg
  conv_lhs => rw [← List.take_append_drop k (rangeOffsets s), List.drop_eq_getElem_cons hl, hg']

/-- The loop when neither index is met: it runs to the end. -/
theorem substrLoop_none (s : Bytes) (start end_ : Int) (hs : (UTF8Len s : Int) ≤ start)
    (he : end_ = 0 ∨ start < end_) :
    substrLoop s start end_ (rangeOffsets s) (-1) 0 = .inr (-1, UTF8Len s) := by
  have := substrLoop_skip s start end_ (rangeOffsets s) [] (-1) 0
    (by
      intro j hj
      rw [rangeOffsets_length] at hj
      omega)
    (by
      rcases he with he | he
      · exact Or.inl he
      · right
        intro j hj
        rw [rangeOffsets_length] at hj
        omega)
  rw [List.append_nil] at this
  rw [this, rangeOffsets_length]
  simp [substrLoop]

/-- The loop up to and including the iteration at code point `a = start`, `end ≠ 0`. -/
theorem substrLoop_start (s : Bytes) (a : Nat) (end_ : Int) (ha : a < UTF8Len s)
    (he : (a : Int) < end_) (sb : Int) :
    substrLoop s a end_ (rangeOffsets s) sb 0 =
      substrLoop s a end_ ((rangeOffsets s).drop (a + 1)) (runeOffset s a) (a + 1) := by
  have hl : (rangeOffsets s).length = UTF8Len s := rangeOffsets_length s
  conv_lhs => rw [rangeOffsets_split s a ha]
  rw [substrLoop_skip]
  · have hlt : ((rangeOffsets s).take a).length = a := by
      rw [List.length_take, hl]; omega
    rw [hlt, Nat.zero_add]
    have e0 : end_ ≠ 0 := by omega
    have e1 : ¬ ((a : Int) = end_) := by omega
    simp [substrLoop, e0, e1]
  · intro j hj
    rw [List.length_take, hl] at hj
    omega
  · right
    intro j hj
    rw [List.length_take, hl] at hj
    omega

theorem safeSubstring_unfold (s : Bytes) (start end_ : Int)
    (h1 : ¬ (start < 0 ∨ start ≥ (s.length : Int))) (h2 : ¬ (end_ ≠ 0 ∧ end_ ≤ start))
    (h3 : ¬ (end_ > (s.length : Int))) :
    SafeSubstring s start end_ =
      afterLoop s start end_ (substrLoop s start end_ (rangeOffsets s) (-1) 0) := by
  unfold SafeSubstring rangeOffsets afterLoop
  rw [if_neg h1, if_neg h2, if_neg h3]

theorem sliceFrom_runeOffset (s : Bytes) (a : Nat) :
    sliceFrom s (runeOffset s a : Int) = .ok ((runeBytes s).drop a).flatten := by
  have h := runeOffset_le s a
  unfold sliceFrom
  rw [if_pos ⟨by omega, by omega⟩]
  simp only [Int.toNat_ofNat]
  congr 1
  have := flatten_drop_take (runeBytes s) a
  rw [runeBytes_flatten] at this
  exact this

theorem runeSlice_count (s : Bytes) (a n : Nat) (hn : UTF8Len s ≤ n) :
    runeSlice s a n = ((runeBytes s).drop a).flatten := by
  unfold runeSlice
  rw [List.take_of_length_le]
  rw [List.length_drop, ← UTF8Len_eq]
  omega

theorem sliceFromTo_runeOffset (s : Bytes) (a b : Nat) (h : a ≤ b) :
    sliceFromTo s (runeOffset s a : Int) (runeOffset s b : Int) = .ok (runeSlice s a b) := by
  have h1 := runeOffset_le s b
  have h2 := runeOffset_mono s a b h
  unfold sliceFromTo
  rw [if_pos ⟨by omega, by omega, by omega⟩]
  simp only [Int.toNat_ofNat]
  congr 1
  have := flatten_slice (runeBytes s) a b h
  rw [runeBytes_flatten] at this
  exact this

theorem safeSubstring_ok_zero (s : Bytes) (a : Nat) (ha : a < UTF8Len s) :
    SafeSubstring s a 0 = .ok (runeSlice s a (UTF8Len s), none) := by
  have hN := UTF8Len_le_length s
  have hl : (rangeOffsets s).length = UTF8Len s := rangeOffsets_length s
  rw [safeSubstring_unfold s a 0 (by omega) (by omega) (by omega)]
  rw [rangeOffsets_split s a ha, substrLoop_skip]
  · have hlt : ((rangeOffsets s).take a).length = a := by
      rw [List.length_take, hl]; omega
    rw [hlt, Nat.zero_add]
    simp only [substrLoop, afterLoop, and_self, if_true]
    rw [sliceFrom_runeOffset, runeSlice_count s a _ (le_refl _)]
    rfl
  · intro j hj
    rw [List.length_take, hl] at hj
    omega
  · exact Or.inl rfl

theorem safeSubstring_ok_end (s : Bytes) (a b : Nat) (hab : a < b) (hb : b ≤ UTF8Len s) :
    SafeSubstring s a b = .ok (runeSlice s a b, none) := by
  have hN := UTF8Len_le_length s
  have hl : (rangeOffsets s).length = UTF8Len s := rangeOffsets_length s
  rw [safeSubstring_unfold s a b (by omega) (by omega) (by omega)]
  rw [substrLoop_start s a b (by omega) (by omega)]
  rw [← List.take_append_drop (b - a - 1) ((rangeOffsets s).drop (a + 1)), substrLoop_skip]
  · have hlt : (((rangeOffsets s).drop (a + 1)).take (b - a - 1)).length = b - a - 1 := by
      rw [List.length_take, List.length_drop, hl]; omega
    rw [hlt, List.drop_drop, show a + 1 + (b - a - 1) = b by omega]
    by_cases hbN : b < UTF8Len s
    · have hlb : b < (rangeOffsets s).length := by omega
      have hg := rangeOffsets_get s b hbN
      rw [List.getElem?_eq_getElem hlb] at hg
      have hg' : (rangeOffsets s)[b] = runeOffset s b := Option.some.inj hg
      rw [List.drop_eq_getElem_cons hlb, hg']
      have e1 : ¬ ((b : Int) = (a : Int)) := by omega
      have e2 : (b : Int) ≠ 0 := by omega
      simp only [substrLoop, afterLoop, e1, e2, false_and, if_false, ne_eq, not_false_eq_true,
        and_self, if_true]
      rw [sliceFromTo_runeOffset s a b (by omega)]
      rfl
    · have hbe : b = UTF8Len s := by omega
      rw [List.drop_of_length_le (by omega)]
      have e1 : ¬ ((runeOffset s a : Int) < 0) := by omega
      simp only [substrLoop, afterLoop, e1, if_false, if_true]
      rw [sliceFrom_runeOffset, runeSlice_count s a b (by omega)]
      rfl
  · intro j hj
    rw [List.length_take, List.length_drop, hl] at hj
    omega
  · right
    intro j hj
    rw [List.length_take, List.length_drop, hl] at hj
    omega

theorem safeSubstring_err (s : Bytes) (start end_ : Int)
    (h : start < 0 ∨ (UTF8Len s : Int) ≤ start ∨ (end_ ≠ 0 ∧ end_ ≤ start) ∨
      (UTF8Len s : Int) < end_) :
    ∃ e, SafeSubstring s start end_ = .ok ([], some e) := by
  have hN := UTF8Len_le_length s
  have hl : (rangeOffsets s).length = UTF8Len s := rangeOffsets_length s
  by_cases h1 : start < 0 ∨ start ≥ (s.length : Int)
  · exact ⟨_, by unfold SafeSubstring; rw [if_pos h1]⟩
  by_cases h2 : end_ ≠ 0 ∧ end_ ≤ start
  · exact ⟨_, by unfold SafeSubstring; rw [if_neg h1, if_pos h2]⟩
  by_cases h3 : end_ > (s.length : Int)
  · exact ⟨_, by unfold SafeSubstring; rw [if_neg h1, if_neg h2, if_pos h3]⟩
  rw [safeSubstring_unfold s start end_ h1 h2 h3]
  by_cases hs : (UTF8Len s : Int) ≤ start
  · rw [substrLoop_none s start end_ hs (by omega)]
    refine ⟨.startOutOfRangeOf start (UTF8Len s), ?_⟩
    simp only [afterLoop]
    rw [if_pos (by omega)]
  · obtain ⟨a, rfl⟩ := Int.eq_ofNat_of_zero_le (by omega : 0 ≤ start)
    have he : (UTF8Len s : Int) < end_ := by omega
    rw [substrLoop_start s a end_ (by omega) (by omega)]
    have := substrLoop_skip s a end_ ((rangeOffsets s).drop (a + 1)) [] (runeOffset s a) (a + 1)
      (by intro j hj; omega)
      (by
        right
        intro j hj
        rw [List.length_drop, hl] at hj
        omega)
    rw [List.append_nil] at this
    rw [this]
    have e1 : ¬ ((runeOffset s a : Int) < 0) := by omega
    have e2 : ¬ (end_ = ((a + 1 + ((rangeOffsets s).drop (a + 1)).length : Nat) : Int)) := by
      rw [List.length_drop, hl]
      omega
    refine ⟨.endOutOfRangeOf end_ (a + 1 + ((rangeOffsets s).drop (a + 1)).length), ?_⟩
    simp only [substrLoop, afterLoop, e1, e2, if_false]

/-! ## `SafeSubstring` and `Substring` -/

theorem runes_runeSlice (s : Bytes) (a b : Nat) :
    runes (runeSlice s a b) = ((runes s).drop a).take (b - a) := by
  rw [runes_eq_map, runes_eq_map]
  unfold runeSlice
  rw [runeBytes_slice, List.map_take, List.map_drop]

theorem runeBytes_runeSlice (s : Bytes) (a b : Nat) :
    runeBytes (runeSlice s a b) = ((runeBytes s).drop a).take (b - a) := by
  unfold runeSlice
  rw [runeBytes_slice]

theorem UTF8Len_runeSlice (s : Bytes) (a b : Nat) (hb : b ≤ UTF8Len s) :
    UTF8Len (runeSlice s a b) = b - a := by
  rw [UTF8Len_eq, runeBytes_runeSlice, List.length_take, List.length_drop, ← UTF8Len_eq]
  omega

/-- C1: for `0 ≤ start < end ≤ UTF8Len(s)`, `SafeSubstring(s, start, end)` returns a nil
error and the string made of the code points `start, ..., end-1` of `s` in order (code-point
indices, not byte indices); the result has `end - start` code points. -/
theorem C1_safeSubstring_range (s : Bytes) (start end_ : Int) (h0 : 0 ≤ start)
    (h1 : start < end_) (h2 : end_ ≤ (UTF8Len s : Int)) :
    ∃ res, SafeSubstring s start end_ = .ok (res, none) ∧
      res = (((runeBytes s).drop start.toNat).take (end_.toNat - start.toNat)).flatten ∧
      runeBytes res = ((runeBytes s).drop start.toNat).take (end_.toNat - start.toNat) ∧
      runes res = ((runes s).drop start.toNat).take (end_.toNat - start.toNat) ∧
      (UTF8Len res : Int) = end_ - start := by
  obtain ⟨a, rfl⟩ := Int.eq_ofNat_of_zero_le h0
  obtain ⟨b, rfl⟩ := Int.eq_ofNat_of_zero_le (by omega : 0 ≤ end_)
  refine ⟨runeSlice s a b, safeSubstring_ok_end s a b (by omega) (by omega), rfl, ?_, ?_, ?_⟩
  · exact runeBytes_runeSlice s a b
  · exact runes_runeSlice s a b
  · rw [UTF8Len_runeSlice s a b (by omega)]
    omega

theorem C1_safeSubstring_range_witness :
    (0 : Int) ≤ 1 ∧ (1 : Int) < 3 ∧
    (3 : Int) ≤ (UTF8Len [0x61, 0xC3, 0xA9, 0xFF, 0xE2, 0x82, 0xAC] : Int) ∧
    ∃ res, SafeSubstring [0x61, 0xC3, 0xA9, 0xFF, 0xE2, 0x82, 0xAC] 1 3 = .ok (res, none) ∧
      res = (((runeBytes [0x61, 0xC3, 0xA9, 0xFF, 0xE2, 0x82, 0xAC]).drop (1 : Int).toNat).take
        ((3 : Int).toNat - (1 : Int).toNat)).flatten ∧
      runeBytes res = ((runeBytes [0x61, 0xC3, 0xA9, 0xFF, 0xE2, 0x82, 0xAC]).drop
        (1 : Int).toNat).take ((3 : Int).toNat - (1 : Int).toNat) ∧
      runes res = ((runes [0x61, 0xC3, 0xA9, 0xFF, 0xE2, 0x82, 0xAC]).drop (1 : Int).toNat).take
        ((3 : Int).toNat - (1 : Int).toNat) ∧
      (UTF8Len res : Int) = 3 - 1 :=
  ⟨by decide, by decide, by decide,
    C1_safeSubstring_range [0x61, 0xC3, 0xA9, 0xFF, 0xE2, 0x82, 0xAC] 1 3 (by decide) (by decide)
      (by decide)⟩

/-- C2: for `0 ≤ start < UTF8Len(s)`, `SafeSubstring(s, start, 0)` returns a nil error and
the suffix of `s` that begins at code-point index `start`. -/
theorem C2_safeSubstring_suffix (s : Bytes) (start : Int) (h0 : 0 ≤ start)
    (h1 : start < (UTF8Len s : Int)) :
    ∃ res, SafeSubstring s start 0 = .ok (res, none) ∧
      res = s.drop (runeOffset s start.toNat) ∧
      res = ((runeBytes s).drop start.toNat).flatten ∧
      runes res = (runes s).drop start.toNat := by
  obtain ⟨a, rfl⟩ := Int.eq_ofNat_of_zero_le h0
  have hres : runeSlice s a (UTF8Len s) = ((runeBytes s).drop a).flatten :=
    runeSlice_count s a _ (le_refl _)
  refine ⟨runeSlice s a (UTF8Len s), safeSubstring_ok_zero s a (by omega), ?_, hres, ?_⟩
  · rw [hres]
    have := flatten_drop_take (runeBytes s) a
    rw [runeBytes_flatten] at this
    exact this.symm
  · rw [runes_runeSlice, List.take_of_length_le]
    · rfl
    · rw [List.length_drop, runes_length]

theorem C2_safeSubstring_suffix_witness :
    (0 : Int) ≤ 1 ∧ (1 : Int) < (UTF8Len [0xC3, 0xA9, 0x61, 0xE2, 0x82, 0xAC] : Int) ∧
    ∃ res, SafeSubstring [0xC3, 0xA9, 0x61, 0xE2, 0x82, 0xAC] 1 0 = .ok (res, none) ∧
      res = ([0xC3, 0xA9, 0x61, 0xE2, 0x82, 0xAC] : Bytes).drop
        (runeOffset [0xC3, 0xA9, 0x61, 0xE2, 0x82, 0xAC] (1 : Int).toNat) ∧
      res = ((runeBytes [0xC3, 0xA9, 0x61, 0xE2, 0x82, 0xAC]).drop (1 : Int).toNat).flatten ∧
      runes res = (runes [0xC3, 0xA9, 0x61, 0xE2, 0x82, 0xAC]).drop (1 : Int).toNat :=
  ⟨by decide, by decide,
    C2_safeSubstring_suffix [0xC3, 0xA9, 0x61, 0xE2, 0x82, 0xAC] 1 (by decide) (by decide)⟩

/-- C3: `SafeSubstring(s, start, end)` returns a non-nil error and the empty string whenever
`start < 0`, or `start ≥ UTF8Len(s)`, or `end ≠ 0` and `end ≤ start`, or `end > UTF8Len(s)`;
the bound is the code-point count, not the byte length. -/
theorem C3_safeSubstring_error (s : Bytes) (start end_ : Int)
    (h : start < 0 ∨ (UTF8Len s : Int) ≤ start ∨ (end_ ≠ 0 ∧ end_ ≤ start) ∨
      (UTF8Len s : Int) < end_) :
    ∃ e, SafeSubstring s start end_ = .ok ([], some e) :=
  safeSubstring_err s start end_ h

theorem C3_safeSubstring_error_witness :
    ((0 : Int) < 0 ∨ (UTF8Len [0x61, 0xC3, 0xA9] : Int) ≤ 0 ∨ ((3 : Int) ≠ 0 ∧ (3 : Int) ≤ 0) ∨
      (UTF8Len [0x61, 0xC3, 0xA9] : Int) < 3) ∧
    ∃ e, SafeSubstring [0x61, 0xC3, 0xA9] 0 3 = .ok ([], some e) :=
  ⟨by decide, C3_safeSubstring_error [0x61, 0xC3, 0xA9] 0 3 (by decide)⟩

/-- C4: `Substring` panics exactly when `SafeSubstring` returns a non-nil error (and then
panics with that error), and otherwise returns the string `SafeSubstring` returns;
`SafeSubstring` itself never panics. -/
theorem C4_substring_same_contract (s : Bytes) (start end_ : Int) :
    (∃ e, SafeSubstring s start end_ = .ok ([], some e) ∧
      Substring s start end_ = .error (.ofError e)) ∨
    (∃ res, SafeSubstring s start end_ = .ok (res, none) ∧ Substring s start end_ = .ok res) := by
  by_cases h : start < 0 ∨ (UTF8Len s : Int) ≤ start ∨ (end_ ≠ 0 ∧ end_ ≤ start) ∨
      (UTF8Len s : Int) < end_
  · obtain ⟨e, he⟩ := safeSubstring_err s start end_ h
    exact Or.inl ⟨e, he, by unfold Substring; rw [he]⟩
  · right
    obtain ⟨a, rfl⟩ := Int.eq_ofNat_of_zero_le (by omega : 0 ≤ start)
    by_cases he : end_ = 0
    · subst he
      have := safeSubstring_ok_zero s a (by omega)
      exact ⟨_, this, by unfold Substring; rw [this]⟩
    · obtain ⟨b, rfl⟩ := Int.eq_ofNat_of_zero_le (by omega : 0 ≤ end_)
      have := safeSubstring_ok_end s a b (by omega) (by omega)
      exact ⟨_, this, by unfold Substring; rw [this]⟩

/-! ## `IsASCII` -/

theorem byte_lt_128_iff (x : Nat) (hx : x < 256) : x < 128 ↔ x.testBit 7 = false := by
  rw [Nat.testBit_to_div_mod]
  simp only [decide_eq_false_iff_not]
  omega

theorem or_byte (a b : Nat) (ha : a < 256) (hb : b < 256) :
    (a ||| b) % 256 < 256 ∧ ((a ||| b) % 256 < 128 ↔ a < 128 ∧ b < 128) := by
  have h : a ||| b < 2 ^ 8 := Nat.or_lt_two_pow (by simpa using ha) (by simpa using hb)
  have h' : a ||| b < 256 := by simpa using h
  rw [Nat.mod_eq_of_lt h']
  refine ⟨h', ?_⟩
  rw [byte_lt_128_iff _ h', byte_lt_128_iff _ ha, byte_lt_128_iff _ hb, Nat.testBit_or]
  simp

theorem setBits_fold (s : Bytes) (acc : Nat) (hacc : acc < 256) (hs : IsBytes s) :
    s.foldl (fun setBits b => (setBits ||| b) % 256) acc < 256 ∧
    (s.foldl (fun setBits b => (setBits ||| b) % 256) acc < 128 ↔
      acc < 128 ∧ ∀ b ∈ s, b < 128) := by
  induction s generalizing acc with
  | nil => simp [hacc]
  | cons b s ih =>
    have hb : b < 256 := hs b (by simp)
    have hs' : IsBytes s := fun x hx => hs x (by simp [hx])
    obtain ⟨h1, h2⟩ := or_byte acc b hacc hb
    obtain ⟨i1, i2⟩ := ih _ h1 hs'
    simp only [List.foldl_cons]
    refine ⟨i1, ?_⟩
    rw [i2, h2]
    simp only [List.mem_cons, forall_eq_or_imp]
    tauto

theorem isASCII_iff_bytes (s : Bytes) (hs : IsBytes s) :
    IsASCII s = true ↔ ∀ b ∈ s, b < 0x80 := by
  unfold IsASCII RuneSelf
  simp only [decide_eq_true_eq]
  rw [(setBits_fold s 0 (by omega) hs).2]
  simp

/-! ### The value of a decoded rune -/

theorem shl_or (x y i : Nat) (h : y < 2 ^ i) : x <<< i ||| y = x * 2 ^ i + y := by
  rw [Nat.shiftLeft_eq, Nat.mul_comm, ← Nat.mul_add_lt_is_or h]

theorem and_maskx (x : Nat) : x &&& maskx = x % 64 :=
  Nat.and_pow_two_sub_one_eq_mod x 6

theorem and_mask2 (x : Nat) : x &&& mask2 = x % 32 :=
  Nat.and_pow_two_sub_one_eq_mod x 5

theorem and_mask3 (x : Nat) : x &&& mask3 = x % 16 :=
  Nat.and_pow_two_sub_one_eq_mod x 4

theorem and_mask4 (x : Nat) : x &&& mask4 = x % 8 :=
  Nat.and_pow_two_sub_one_eq_mod x 3

theorem rune2_eq (a b : Nat) : rune2 a b = a % 32 * 64 + b % 64 := by
  unfold rune2
  rw [and_maskx, and_mask2, shl_or _ _ 6 (by omega)]
  norm_num

theorem rune3_eq (a b c : Nat) : rune3 a b c = a % 16 * 4096 + b % 64 * 64 + c % 64 := by
  unfold rune3
  rw [and_maskx, and_maskx, and_mask3, Nat.shiftLeft_eq (b % 64) 6,
    shl_or _ _ 12 (by omega)]
  have e : a % 16 * 2 ^ 12 + b % 64 * 2 ^ 6 = (a % 16 * 64 + b % 64) <<< 6 := by
    rw [Nat.shiftLeft_eq]; omega
  rw [e, shl_or _ _ 6 (by omega)]
  omega

theorem rune4_eq (a b c d : Nat) :
    rune4 a b c d = a % 8 * 262144 + b % 64 * 4096 + c % 64 * 64 + d % 64 := by
  unfold rune4
  rw [and_maskx, and_maskx, and_maskx, and_mask4, Nat.shiftLeft_eq (b % 64) 12,
    Nat.shiftLeft_eq (c % 64) 6, shl_or _ _ 18 (by omega)]
  have e : a % 8 * 2 ^ 18 + b % 64 * 2 ^ 12 = (a % 8 * 64 + b % 64) <<< 12 := by
    rw [Nat.shiftLeft_eq]; omega
  rw [e, shl_or _ _ 12 (by omega)]
  have e2 : (a % 8 * 64 + b % 64) * 2 ^ 12 + c % 64 * 2 ^ 6 =
      ((a % 8 * 64 + b % 64) * 64 + c % 64) <<< 6 := by
    rw [Nat.shiftLeft_eq]; omega
  rw [e2, shl_or _ _ 6 (by omega)]
  omega

/-- A well-formed encoding is ASCII exactly when its code point is. -/
theorem encRune_lt_128 (c : Bytes) (h : IsEncoding c) :
    encRune c < 128 ↔ ∀ b ∈ c, b < 128 := by
  rcases c with _ | ⟨a, _ | ⟨b, _ | ⟨c, _ | ⟨d, _ | ⟨e, t⟩⟩⟩⟩⟩
  · simp [IsEncoding] at h
  · simp [encRune]
  · simp only [IsEncoding] at h
    simp only [encRune, rune2_eq, List.mem_cons, List.mem_singleton, forall_eq_or_imp, forall_eq,
      List.not_mem_nil, false_imp_iff, implies_true, and_true]
    omega
  · simp only [IsEncoding] at h
    simp only [encRune, rune3_eq, List.mem_cons, List.mem_singleton, forall_eq_or_imp, forall_eq,
      List.not_mem_nil, false_imp_iff, implies_true, and_true]
    omega
  · simp only [IsEncoding] at h
    simp only [encRune, rune4_eq, List.mem_cons, List.mem_singleton, forall_eq_or_imp, forall_eq,
      List.not_mem_nil, false_imp_iff, implies_true, and_true]
    omega
  · simp [IsEncoding] at h

/-- Every segment of `runeBytes s` is a well-formed encoding or one stray byte. -/
theorem runeBytes_chunk (s : Bytes) : ∀ c ∈ runeBytes s,
    (IsEncoding c ∧ DecodeRuneInString c = (encRune c, c.length)) ∨
    (∃ a, c = [a] ∧ 0x80 ≤ a ∧ DecodeRuneInString c = (RuneError, 1)) := by
  induction s using rune_induction with
  | nil => simp [runeBytes_nil]
  | step s hs ih =>
    rw [runeBytes_cons s hs]
    intro c hc
    rcases List.mem_cons.mp hc with h | h
    · subst h
      have hd := decode_take s _ (le_refl (DecodeRuneInString s).2)
      rcases decode_cases s hs with ⟨e, t, hst, he, hde⟩ | ⟨hn, hde⟩
      · left
        have hte : s.take (DecodeRuneInString s).2 = e := by
          rw [hde, hst]
          simp
        rw [hd, hte]
        exact ⟨he, hde⟩
      · right
        rcases s with _ | ⟨a, t⟩
        · exact absurd rfl hs
        · refine ⟨a, ?_, ?_, ?_⟩
          · rw [hde]; simp
          · by_contra hlt
            exact hn [a] t rfl (by simp only [IsEncoding]; omega)
          · rw [hd, hde]
    · exact ih c h

theorem chunk_rune_lt_128 (c : Bytes)
    (h : (IsEncoding c ∧ DecodeRuneInString c = (encRune c, c.length)) ∨
      (∃ a, c = [a] ∧ 0x80 ≤ a ∧ DecodeRuneInString c = (RuneError, 1))) :
    (DecodeRuneInString c).1 < 128 ↔ ∀ b ∈ c, b < 128 := by
  rcases h with ⟨he, hd⟩ | ⟨a, rfl, ha, hd⟩
  · rw [hd]
    exact encRune_lt_128 c he
  · rw [hd]
    simp only [RuneError, List.mem_singleton, forall_eq]
    omega

theorem runes_lt_128_iff (s : Bytes) : (∀ r ∈ runes s, r < 128) ↔ ∀ b ∈ s, b < 128 := by
  rw [runes_eq_map]
  have hc := runeBytes_chunk s
  have hf := runeBytes_flatten s
  generalize runeBytes s = L at hc hf
  subst hf
  simp only [List.mem_map, forall_exists_index, and_imp, forall_apply_eq_imp_iff₂,
    List.mem_flatten]
  constructor
  · intro h b c hcL hb
    exact (chunk_rune_lt_128 c (hc c hcL)).mp (h c hcL) b hb
  · intro h c hcL
    exact (chunk_rune_lt_128 c (hc c hcL)).mpr (fun b hb => h b c hcL hb)

/-- C7: `IsASCII(s)` is true iff every byte of `s` is below `0x80`, equivalently iff every
code point of `s` is below 128; `IsASCII("")` is true. -/
theorem C7_isASCII_iff (s : Bytes) (hs : IsBytes s) :
    (IsASCII s = true ↔ ∀ b ∈ s, b < 0x80) ∧
    (IsASCII s = true ↔ ∀ r ∈ runes s, r < 128) ∧
    IsASCII [] = true := by
  refine ⟨isASCII_iff_bytes s hs, ?_, by decide⟩
  rw [runes_lt_128_iff]
  exact isASCII_iff_bytes s hs

theorem C7_isASCII_iff_witness :
    IsBytes [0x61, 0xC3, 0xA9] ∧
    (IsASCII [0x61, 0xC3, 0xA9] = true ↔ ∀ b ∈ ([0x61, 0xC3, 0xA9] : Bytes), b < 0x80) ∧
    (IsASCII [0x61, 0xC3, 0xA9] = true ↔ ∀ r ∈ runes [0x61, 0xC3, 0xA9], r < 128) ∧
    IsASCII [] = true :=
  ⟨by decide, C7_isASCII_iff [0x61, 0xC3, 0xA9] (by decide)⟩

/-! ## `Reverse` -/

/-! ### `EncodeRune` after `DecodeRuneInString` -/

theorem or_tx (y : Nat) (h : y < 64) : tx ||| y = 128 + y := by
  have := Nat.mul_add_lt_is_or (i := 6) (b := y) (by simpa using h) 2
  simp only [tx]
  norm_num at this
  exact this.symm

theorem or_t2 (y : Nat) (h : y < 64) : t2 ||| y = 192 + y := by
  have := Nat.mul_add_lt_is_or (i := 6) (b := y) (by simpa using h) 3
  simp only [t2]
  norm_num at this
  exact this.symm

theorem or_t3 (y : Nat) (h : y < 32) : t3 ||| y = 224 + y := by
  have := Nat.mul_add_lt_is_or (i := 5) (b := y) (by simpa using h) 7
  simp only [t3]
  norm_num at this
  exact this.symm

theorem or_t4 (y : Nat) (h : y < 16) : t4 ||| y = 240 + y := by
  have := Nat.mul_add_lt_is_or (i := 4) (b := y) (by simpa using h) 15
  simp only [t4]
  norm_num at this
  exact this.symm

theorem encodeRune_one (a : Nat) (z : Nat) (tl : Bytes) (h : a < 0x80) :
    EncodeRune (z :: tl) a = .ok (a :: tl, 1) := by
  unfold EncodeRune
  rw [if_pos (by simp only [rune1Max]; omega)]
  simp only [store, List.length_cons, Nat.zero_lt_succ, if_true, List.set_cons_zero, bind,
    Except.bind, pure, Except.pure]
  rw [Nat.mod_eq_of_lt (by omega)]

theorem encodeRune_two (a b : Nat) (z0 z1 : Nat) (tl : Bytes)
    (h : IsEncoding [a, b]) :
    EncodeRune (z0 :: z1 :: tl) (rune2 a b) = .ok (a :: b :: tl, 2) := by
  simp only [IsEncoding] at h
  have hr := rune2_eq a b
  unfold EncodeRune
  rw [if_neg (by simp only [rune1Max]; omega), if_pos (by simp only [rune2Max]; omega)]
  simp only [store, boundsCheck, List.length_cons, bind, Except.bind, pure, Except.pure,
    List.set_cons_zero, List.set_cons_succ, Nat.zero_lt_succ, Nat.succ_lt_succ_iff, if_true,
    Nat.shiftRight_eq_div_pow, and_maskx]
  have e0 : t2 ||| rune2 a b / 64 % 256 = a := by
    rw [or_t2 _ (by omega)]; omega
  have e1 : tx ||| rune2 a b % 256 % 64 = b := by
    rw [or_tx _ (by omega)]; omega
  simp [e0, e1]

theorem encodeRune_three (a b c : Nat) (z0 z1 z2 : Nat) (tl : Bytes)
    (h : IsEncoding [a, b, c]) :
    EncodeRune (z0 :: z1 :: z2 :: tl) (rune3 a b c) = .ok (a :: b :: c :: tl, 3) := by
  simp only [IsEncoding] at h
  have hr := rune3_eq a b c
  unfold EncodeRune
  rw [if_neg (by simp only [rune1Max]; omega), if_neg (by simp only [rune2Max]; omega),
    if_neg (by simp only [MaxRune, surrogateMin, surrogateMax]; omega),
    if_pos (by simp only [rune3Max]; omega)]
  simp only [encodeRune3, store, boundsCheck, List.length_cons, bind, Except.bind, pure,
    Except.pure, List.set_cons_zero, List.set_cons_succ, Nat.zero_lt_succ, Nat.succ_lt_succ_iff,
    if_true, Nat.shiftRight_eq_div_pow, and_maskx]
  have e0 : t3 ||| rune3 a b c / 4096 % 256 = a := by
    rw [or_t3 _ (by omega)]; omega
  have e1 : tx ||| rune3 a b c / 64 % 256 % 64 = b := by
    rw [or_tx _ (by omega)]; omega
  have e2 : tx ||| rune3 a b c % 256 % 64 = c := by
    rw [or_tx _ (by omega)]; omega
  simp [e0, e1, e2]

theorem encodeRune_four (a b c d : Nat) (z0 z1 z2 z3 : Nat) (tl : Bytes)
    (h : IsEncoding [a, b, c, d]) :
    EncodeRune (z0 :: z1 :: z2 :: z3 :: tl) (rune4 a b c d) = .ok (a :: b :: c :: d :: tl, 4) := by
  simp only [IsEncoding] at h
  have hr := rune4_eq a b c d
  unfold EncodeRune
  rw [if_neg (by simp only [rune1Max]; omega), if_neg (by simp only [rune2Max]; omega),
    if_neg (by simp only [MaxRune, surrogateMin, surrogateMax]; omega),
    if_neg (by simp only [rune3Max]; omega)]
  simp only [store, boundsCheck, List.length_cons, bind, Except.bind, pure,
    Except.pure, List.set_cons_zero, List.set_cons_succ, Nat.zero_lt_succ, Nat.succ_lt_succ_iff,
    if_true, Nat.shiftRight_eq_div_pow, and_maskx]
  have e0 : t4 ||| rune4 a b c d / 262144 % 256 = a := by
    rw [or_t4 _ (by omega)]; omega
  have e1 : tx ||| rune4 a b c d / 4096 % 256 % 64 = b := by
    rw [or_tx _ (by omega)]; omega
  have e2 : tx ||| rune4 a b c d / 64 % 256 % 64 = c := by
    rw [or_tx _ (by omega)]; omega
  have e3 : tx ||| rune4 a b c d % 256 % 64 = d := by
    rw [or_tx _ (by omega)]; omega
  simp [e0, e1, e2, e3]

/-- Encoding the code point of a well-formed encoding `c` over a long enough slice writes
`c` back. -/
theorem encodeRune_encRune (c zs tl : Bytes) (h : IsEncoding c) (hz : zs.length = c.length) :
    EncodeRune (zs ++ tl) (encRune c) = .ok (c ++ tl, c.length) := by
  rcases c with _ | ⟨a, _ | ⟨b, _ | ⟨c, _ | ⟨d, _ | ⟨e, t⟩⟩⟩⟩⟩
  · simp [IsEncoding] at h
  · rcases zs with _ | ⟨z0, _ | ⟨z1, zs⟩⟩ <;> simp at hz
    simp only [IsEncoding] at h
    exact encodeRune_one a z0 tl h
  · rcases zs with _ | ⟨z0, _ | ⟨z1, _ | ⟨z2, zs⟩⟩⟩ <;> simp at hz
    exact encodeRune_two a b z0 z1 tl h
  · rcases zs with _ | ⟨z0, _ | ⟨z1, _ | ⟨z2, _ | ⟨z3, zs⟩⟩⟩⟩ <;> simp at hz
    exact encodeRune_three a b c z0 z1 z2 tl h
  · rcases zs with _ | ⟨z0, _ | ⟨z1, _ | ⟨z2, _ | ⟨z3, _ | ⟨z4, zs⟩⟩⟩⟩⟩ <;> simp at hz
    exact encodeRune_four a b c d z0 z1 z2 z3 tl h
  · simp [IsEncoding] at h

/-! ### The loop of `Reverse` -/

/-- More fuel than `len(s) - start` does not change the result of the loop. -/
theorem reverseLoop_fuel (s : Bytes) (f g start : Nat) (buf : Bytes)
    (hf : s.length - start ≤ f) (hg : s.length - start ≤ g) :
    reverseLoop s s.length f start buf = reverseLoop s s.length g start buf := by
  induction f generalizing g start buf with
  | zero =>
    cases g with
    | zero => rfl
    | succ g =>
      simp only [reverseLoop]
      rw [if_neg (by omega)]
  | succ f ih =>
    cases g with
    | zero =>
      simp only [reverseLoop]
      rw [if_neg (by omega)]
    | succ g =>
      simp only [reverseLoop]
      by_cases hlt : start < s.length
      · rw [if_pos hlt, if_pos hlt]
        have hne : s.drop start ≠ [] := by
          intro h0
          have := congrArg List.length h0
          simp at this
          omega
        have hw := decode_width _ hne
        cases sliceFrom buf ((s.length : Int) - ((start + (DecodeRuneInString (s.drop start)).2 : Nat) : Int)) with
        | error e => rfl
        | ok p =>
          simp only []
          cases EncodeRune p (DecodeRuneInString (s.drop start)).1 with
          | error e => rfl
          | ok q =>
            simp only []
            exact ih _ _ _ (by omega) (by omega)
      · rw [if_neg hlt, if_neg hlt]

/-- The loop of `Reverse` on a string whose remaining part is a sequence `L` of well-formed
encodings: they are written to the buffer from right to left. -/
theorem reverseLoop_valid (L : List Bytes) (hL : ∀ c ∈ L, IsEncoding c) (pre zs done : Bytes)
    (fuel : Nat) (hfuel : L.length ≤ fuel) (hzs : zs.length = L.flatten.length)
    (hdone : done.length = pre.length) :
    reverseLoop (pre ++ L.flatten) (pre ++ L.flatten).length fuel pre.length (zs ++ done) =
      .ok (L.reverse.flatten ++ done) := by
  induction L generalizing pre zs done fuel with
  | nil =>
    have : zs = [] := List.length_eq_zero.mp (by simpa using hzs)
    subst this
    cases fuel with
    | zero => rfl
    | succ f =>
      simp only [reverseLoop, List.flatten_nil, List.append_nil, lt_self_iff_false, if_false,
        List.reverse_nil, List.nil_append]
  | cons c L ih =>
    have hc : IsEncoding c := hL c (by simp)
    have hL' : ∀ d ∈ L, IsEncoding d := fun d hd => hL d (by simp [hd])
    have hcl := isEncoding_length hc
    obtain ⟨f, rfl⟩ : ∃ f, fuel = f + 1 := ⟨fuel - 1, by simp at hfuel; omega⟩
    simp only [List.flatten_cons, List.length_append] at hzs
    have hlt : pre.length < (pre ++ (c :: L).flatten).length := by
      simp only [List.flatten_cons, List.length_append]; omega
    have hdrop : (pre ++ (c :: L).flatten).drop pre.length = c ++ L.flatten := by
      simp
    have hdec : DecodeRuneInString (c ++ L.flatten) = (encRune c, c.length) :=
      decode_enc_append c _ hc
    simp only [reverseLoop]
    rw [if_pos hlt, hdrop, hdec]
    simp only []
    have hsz : ((pre ++ (c :: L).flatten).length : Int) - ((pre.length + c.length : Nat) : Int)
        = (L.flatten.length : Int) := by
      simp only [List.flatten_cons, List.length_append]
      push_cast
      omega
    have hsz' : (pre ++ (c :: L).flatten).length - (pre.length + c.length) = L.flatten.length := by
      simp only [List.flatten_cons, List.length_append]
      omega
    rw [hsz, hsz']
    have hsl : sliceFrom (zs ++ done) (L.flatten.length : Int) =
        .ok (zs.drop L.flatten.length ++ done) := by
      unfold sliceFrom
      rw [if_pos ⟨by omega, by simp only [List.length_append]; omega⟩]
      simp only [Int.toNat_ofNat]
      rw [List.drop_append_of_le_length (by omega)]
    rw [hsl]
    simp only []
    rw [encodeRune_encRune c (zs.drop L.flatten.length) done hc
      (by rw [List.length_drop]; omega)]
    simp only []
    rw [List.take_append_of_le_length (by omega)]
    have := ih hL' (pre ++ c) (zs.take L.flatten.length) (c ++ done) f
      (by simp at hfuel; omega)
      (by rw [List.length_take]; omega)
      (by simp only [List.length_append]; omega)
    simp only [List.append_assoc, List.length_append] at this
    simp only [List.flatten_cons, List.length_append, List.append_assoc]
    rw [this]
    simp

theorem reverse_valid (L : List Bytes) (hL : ∀ c ∈ L, IsEncoding c) :
    Reverse L.flatten = .ok L.reverse.flatten := by
  have := reverseLoop_valid L hL [] (List.replicate L.flatten.length 0) [] L.flatten.length
    (by
      have h1 : ∀ c ∈ L, 1 ≤ c.length := fun c hc => (isEncoding_length (hL c hc)).1
      clear hL
      induction L with
      | nil => simp
      | cons c L ih =>
        have := ih (fun d hd => h1 d (by simp [hd]))
        have := h1 c (by simp)
        simp only [List.length_cons, List.flatten_cons, List.length_append]
        omega)
    (by simp) rfl
  simp only [List.nil_append, List.append_nil, List.length_nil] at this
  unfold Reverse
  exact this

theorem runeBytes_of_encodings (L : List Bytes) (hL : ∀ c ∈ L, IsEncoding c) :
    runeBytes L.flatten = L := by
  induction L with
  | nil => simp [runeBytes_nil]
  | cons c L ih =>
    have hc : IsEncoding c := hL c (by simp)
    have hne : (c :: L).flatten ≠ [] := by
      have := isEncoding_ne_nil hc
      simp [this]
    rw [runeBytes_cons _ hne, List.flatten_cons, decode_enc_append c _ hc]
    simp only [List.take_left', List.drop_left']
    rw [ih (fun d hd => hL d (by simp [hd]))]

theorem runes_of_encodings (L : List Bytes) (hL : ∀ c ∈ L, IsEncoding c) :
    runes L.flatten = L.map encRune := by
  rw [runes_eq_map, runeBytes_of_encodings L hL]
  apply List.map_congr_left
  intro c hc
  have := decode_enc_append c [] (hL c hc)
  rw [List.append_nil] at this
  rw [this]

theorem flatten_reverse_length {α : Type} (L : List (List α)) :
    L.reverse.flatten.length = L.flatten.length := by
  induction L with
  | nil => rfl
  | cons c L ih =>
    simp only [List.reverse_cons, List.flatten_append, List.flatten_cons, List.flatten_nil,
      List.length_append, List.append_nil, ih]
    omega

/-- On valid UTF-8, reversing twice gives the string back. -/
theorem reverse_reverse_valid (s : Bytes) (h : ValidUTF8 s) :
    ∃ r, Reverse s = .ok r ∧ Reverse r = .ok s := by
  obtain ⟨L, hL, rfl⟩ := h
  refine ⟨_, reverse_valid L hL, ?_⟩
  have := reverse_valid L.reverse (fun c hc => hL c (List.mem_reverse.mp hc))
  rw [List.reverse_reverse] at this
  exact this

/-- C5 (the code at inputs that are not valid UTF-8): `Reverse("\xff")` panics with an index
out of range, and `Reverse("ab\xff")` returns `"\xef\xbf\xbd"`, whose reversal is not
`"ab\xff"`. -/
theorem C5_reverse_invalid_utf8 :
    Reverse [0xFF] = .error .indexRange ∧
    Reverse [0x61, 0x62, 0xFF] = .ok [0xEF, 0xBF, 0xBD] ∧
    Reverse [0xEF, 0xBF, 0xBD] = .ok [0xEF, 0xBF, 0xBD] := by
  decide

/-- C6: for valid UTF-8 `s`, `Reverse(s)` returns valid UTF-8 whose code points are those of
`s` in reverse order, each with its own bytes in their original order, and which has the
byte length of `s`. -/
theorem C6_reverse_valid_utf8 (s : Bytes) (h : ValidUTF8 s) :
    ∃ res, Reverse s = .ok res ∧ ValidUTF8 res ∧ runes res = (runes s).reverse ∧
      runeBytes res = (runeBytes s).reverse ∧ res.length = s.length := by
  obtain ⟨L, hL, rfl⟩ := h
  have hR : ∀ c ∈ L.reverse, IsEncoding c := fun c hc => hL c (List.mem_reverse.mp hc)
  refine ⟨_, reverse_valid L hL, ⟨L.reverse, hR, rfl⟩, ?_, ?_, flatten_reverse_length L⟩
  · rw [runes_of_encodings _ hR, runes_of_encodings _ hL, List.map_reverse]
  · rw [runeBytes_of_encodings _ hR, runeBytes_of_encodings _ hL]

theorem C6_reverse_valid_utf8_witness :
    ValidUTF8 [0x61, 0xC3, 0xA9, 0xE2, 0x82, 0xAC] ∧
    ∃ res, Reverse [0x61, 0xC3, 0xA9, 0xE2, 0x82, 0xAC] = .ok res ∧ ValidUTF8 res ∧
      runes res = (runes [0x61, 0xC3, 0xA9, 0xE2, 0x82, 0xAC]).reverse ∧
      runeBytes res = (runeBytes [0x61, 0xC3, 0xA9, 0xE2, 0x82, 0xAC]).reverse ∧
      res.length = ([0x61, 0xC3, 0xA9, 0xE2, 0x82, 0xAC] : Bytes).length :=
  ⟨⟨[[0x61], [0xC3, 0xA9], [0xE2, 0x82, 0xAC]], by simp [IsEncoding], rfl⟩,
    C6_reverse_valid_utf8 [0x61, 0xC3, 0xA9, 0xE2, 0x82, 0xAC]
      ⟨[[0x61], [0xC3, 0xA9], [0xE2, 0x82, 0xAC]], by simp [IsEncoding], rfl⟩⟩

/-! ## `words`, `Words` and `CountWords` -/

/-! ### Byte offsets of the range loop -/

theorem rangeAt_bounds (s : Bytes) (i : Nat) :
    ∀ x ∈ rangeAt s i, i ≤ x.1 ∧ x.1 < i + s.length := by
  induction s using rune_induction generalizing i with
  | nil => simp [rangeAt_nil]
  | step s hs ih =>
    have hw := decode_width s hs
    rw [rangeAt_cons s i hs]
    intro x hx
    rcases List.mem_cons.mp hx with h | h
    · subst h
      simp only
      omega
    · have := ih _ x h
      rw [List.length_drop] at this
      omega

theorem rangeAt_pairwise (s : Bytes) (i : Nat) :
    (rangeAt s i).Pairwise (fun x y => x.1 < y.1) := by
  induction s using rune_induction generalizing i with
  | nil => simp [rangeAt_nil]
  | step s hs ih =>
    have hw := decode_width s hs
    rw [rangeAt_cons s i hs, List.pairwise_cons]
    refine ⟨?_, ih _⟩
    intro y hy
    have := rangeAt_bounds _ _ y hy
    simp only
    omega

/-! ### The two modes of `words` -/

theorem wordsStep_sim (T : UnicodeTables) (str : Bytes) (st : WordsState) (ir : Nat × Nat)
    (hlen : st.arr.length = st.count) (hlo : st.lastStart ≤ (ir.1 : Int))
    (hhi : ir.1 ≤ str.length) :
    ∃ st1, wordsStep T str false st ir = .ok st1 ∧
      wordsStep T str true (countState st) ir = .ok (countState st1) ∧
      st1.arr.length = st1.count ∧
      (st1.lastStart = st.lastStart ∨ st1.lastStart = -1 ∨ st1.lastStart = (ir.1 : Int)) := by
  unfold wordsStep countState
  simp only []
  by_cases h1 : runeCat T ir.2 = wordRune ∧ st.prevCat ≠ wordRune ∧ st.lastStart = -1
  · rw [if_pos h1, if_pos h1]
    exact ⟨_, rfl, rfl, hlen, Or.inr (Or.inr rfl)⟩
  · rw [if_neg h1, if_neg h1]
    by_cases h2 : runeCat T ir.2 = nonWordRune ∧
        (st.prevCat = wordRune ∨ st.prevCat = wordPuncRune) ∧ st.lastStart ≥ 0
    · rw [if_pos h2, if_pos h2]
      have hs : sliceFromTo str st.lastStart (ir.1 : Int) =
          .ok ((str.take (ir.1 : Int).toNat).drop st.lastStart.toNat) := by
        unfold sliceFromTo
        rw [if_pos ⟨h2.2.2, hlo, by omega⟩]
      simp only [Bool.not_false, Bool.not_true, if_true, hs]
      refine ⟨_, rfl, ?_, ?_, Or.inr (Or.inl rfl)⟩
      · simp
      · simp [hlen]
    · rw [if_neg h2, if_neg h2]
      exact ⟨_, rfl, rfl, hlen, Or.inl rfl⟩

theorem wordsLoop_sim (T : UnicodeTables) (str : Bytes) (L : List (Nat × Nat))
    (hL : L.Pairwise (fun x y => x.1 < y.1)) (st : WordsState)
    (hlen : st.arr.length = st.count)
    (hb : ∀ x ∈ L, st.lastStart ≤ (x.1 : Int) ∧ x.1 ≤ str.length)
    (hs : st.lastStart ≤ (str.length : Int)) :
    ∃ st1, wordsLoop T str false L st = .ok st1 ∧
      wordsLoop T str true L (countState st) = .ok (countState st1) ∧
      st1.arr.length = st1.count ∧ st1.lastStart ≤ (str.length : Int) := by
  induction L generalizing st with
  | nil => exact ⟨st, rfl, rfl, hlen, hs⟩
  | cons ir L ih =>
    obtain ⟨h1, h2⟩ := hb ir (by simp)
    obtain ⟨st1, e1, e2, e3, e4⟩ := wordsStep_sim T str st ir hlen h1 h2
    rw [List.pairwise_cons] at hL
    have hb1 : ∀ x ∈ L, st1.lastStart ≤ (x.1 : Int) ∧ x.1 ≤ str.length := by
      intro x hx
      have hx1 := hb x (by simp [hx])
      have hx2 := hL.1 x hx
      rcases e4 with e | e | e <;> rw [e] <;> refine ⟨by omega, hx1.2⟩
    have hs1 : st1.lastStart ≤ (str.length : Int) := by
      rcases e4 with e | e | e <;> rw [e] <;> omega
    obtain ⟨st2, f1, f2, f3, f4⟩ := ih hL.2 st1 e3 hb1 hs1
    refine ⟨st2, ?_, ?_, f3, f4⟩
    · simp only [wordsLoop, e1, f1]
    · simp only [wordsLoop, e2, f2]

/-- C8: `CountWords(s)` is the number of elements of `Words(s)`: the counting and the
listing run of `words` agree (and neither panics). -/
theorem C8_countWords_eq_len_words (T : UnicodeTables) (s : Bytes) :
    ∃ arr, Words T s = .ok arr ∧ CountWords T s = .ok arr.length := by
  have hL := rangeAt_pairwise s 0
  have hB := rangeAt_bounds s 0
  rw [← rangeStr_eq_rangeAt] at hL hB
  obtain ⟨st1, e1, e2, e3, e4⟩ := wordsLoop_sim T s (rangeStr s) hL ⟨[], nonWordRune, -1, 0⟩ rfl
    (by
      intro x hx
      have := hB x hx
      simp only
      omega)
    (by simp only; omega)
  have e2' : wordsLoop T s true (rangeStr s) ⟨[], nonWordRune, -1, 0⟩ = .ok (countState st1) := e2
  unfold Words CountWords words
  rw [e1, e2']
  simp only [countState]
  by_cases h : st1.lastStart ≥ 0
  · have hs : sliceFrom s st1.lastStart = .ok (s.drop st1.lastStart.toNat) := by
      unfold sliceFrom
      rw [if_pos ⟨h, e4⟩]
    simp only [if_pos h, Bool.not_false, Bool.not_true, if_true, hs, Except.map]
    refine ⟨_, rfl, ?_⟩
    simp [e3]
  · simp only [if_neg h, Except.map]
    exact ⟨_, rfl, by rw [e3]⟩

/-! ### Inputs made of separators -/

theorem runeCat_of_separator (T : UnicodeTables) (r : Nat) (h : IsSeparator T r) :
    runeCat T r = nonWordRune := by
  obtain ⟨h1, h2⟩ := h
  unfold IsWordChar at h1
  unfold IsWordPunct at h2
  have e1 : (IsLetter T r || IsDigit T r) = false := by
    rcases hl : IsLetter T r <;> rcases hd : IsDigit T r <;> simp_all
  have e2 : inWordPuncRune r = false := by
    unfold inWordPuncRune wordPuncRunes
    simp only [List.any_cons, List.any_nil, Bool.or_false, Bool.or_eq_false_iff, beq_eq_false_iff_ne, ne_eq]
    omega
  unfold runeCat
  simp [e1, e2]

theorem wordsLoop_separators (T : UnicodeTables) (str : Bytes) (onlyCount : Bool)
    (L : List (Nat × Nat)) (hL : ∀ x ∈ L, runeCat T x.2 = nonWordRune) :
    wordsLoop T str onlyCount L ⟨[], nonWordRune, -1, 0⟩ = .ok ⟨[], nonWordRune, -1, 0⟩ := by
  induction L with
  | nil => rfl
  | cons x L ih =>
    have hx := hL x (by simp)
    have hstep : wordsStep T str onlyCount ⟨[], nonWordRune, -1, 0⟩ x =
        .ok ⟨[], nonWordRune, -1, 0⟩ := by
      unfold wordsStep
      simp only [hx]
      rw [if_neg (by decide), if_neg (by decide)]
    simp only [wordsLoop, hstep]
    exact ih (fun y hy => hL y (by simp [hy]))

/-- C10: when every code point of `s` is a separator (this includes `""` and `"   "`),
`Words(s)` is the empty list and `CountWords(s)` is 0. -/
theorem C10_words_of_separators (T : UnicodeTables) (s : Bytes)
    (h : ∀ r ∈ runes s, IsSeparator T r) :
    Words T s = .ok [] ∧ CountWords T s = .ok 0 := by
  have hL : ∀ x ∈ rangeStr s, runeCat T x.2 = nonWordRune := by
    intro x hx
    exact runeCat_of_separator T x.2 (h x.2 (List.mem_map_of_mem Prod.snd hx))
  unfold Words CountWords words
  rw [wordsLoop_separators T s false _ hL, wordsLoop_separators T s true _ hL]
  exact ⟨rfl, rfl⟩

theorem C10_words_of_separators_witness :
    (∀ r ∈ runes [0x20, 0x20, 0x20], IsSeparator latin1Tables r) ∧
    Words latin1Tables [0x20, 0x20, 0x20] = .ok [] ∧
    CountWords latin1Tables [0x20, 0x20, 0x20] = .ok 0 :=
  ⟨by decide, C10_words_of_separators latin1Tables [0x20, 0x20, 0x20] (by decide)⟩

/-! ### Tokens joined by spaces -/

theorem rangeAt_map_snd (s : Bytes) (i : Nat) : (rangeAt s i).map Prod.snd = runes s := by
  unfold runes
  rw [rangeStr_eq_rangeAt]
  generalize 0 = j
  induction s using rune_induction generalizing i j with
  | nil => simp [rangeAt_nil]
  | step s hs ih =>
    rw [rangeAt_cons s i hs, rangeAt_cons s j hs, List.map_cons, List.map_cons, ih _ (j + _)]

/-- The range loop over `t ++ b :: u` for an ASCII byte `b`: the iterations of `t`, then
`b`, then the iterations of `u`. -/
theorem rangeAt_append_ascii (t u : Bytes) (b i : Nat) (hb : b < 0x80) :
    rangeAt (t ++ b :: u) i =
      rangeAt t i ++ (i + t.length, b) :: rangeAt u (i + t.length + 1) := by
  induction t using rune_induction generalizing i with
  | nil =>
    have hd : DecodeRuneInString (b :: u) = (b, 1) :=
      decode_enc_append [b] u (by simp only [IsEncoding]; exact hb)
    rw [List.nil_append, rangeAt_cons _ _ (by simp), hd, rangeAt_nil]
    simp
  | step t ht ih =>
    have hw := decode_width t ht
    have hd := decode_append_ascii t u b ht hb
    rw [rangeAt_cons (t ++ b :: u) i (by simp), hd, rangeAt_cons t i ht,
      List.drop_append_of_le_length hw.2, ih]
    have e : i + (DecodeRuneInString t).2 + (t.length - (DecodeRuneInString t).2) =
        i + t.length := by omega
    simp only [List.cons_append, List.length_drop, e]

theorem wordsLoop_append (T : UnicodeTables) (str : Bytes) (oc : Bool)
    (L1 L2 : List (Nat × Nat)) (st : WordsState) :
    wordsLoop T str oc (L1 ++ L2) st =
      match wordsLoop T str oc L1 st with
      | .error e => .error e
      | .ok st1 => wordsLoop T str oc L2 st1 := by
  induction L1 generalizing st with
  | nil => rfl
  | cons x L1 ih =>
    simp only [List.cons_append, wordsLoop]
    cases wordsStep T str oc st x with
    | error e => rfl
    | ok st1 => exact ih st1

theorem runeCat_of_wordChar (T : UnicodeTables) (r : Nat) (h : IsWordChar T r) :
    runeCat T r = wordRune := by
  unfold IsWordChar at h
  unfold runeCat
  rcases h with h | h <;> simp [h]

theorem runeCat_of_token_rune (T : UnicodeTables) (r : Nat)
    (h : IsWordChar T r ∨ IsWordPunct r) :
    runeCat T r = wordRune ∨ runeCat T r = wordPuncRune := by
  by_cases hw : IsWordChar T r
  · exact Or.inl (runeCat_of_wordChar T r hw)
  · right
    rcases h with h | h
    · exact absurd h hw
    · unfold IsWordChar at hw
      have e1 : (IsLetter T r || IsDigit T r) = false := by
        rcases hl : IsLetter T r <;> rcases hd : IsDigit T r <;> simp_all
      have e2 : inWordPuncRune r = true := by
        unfold IsWordPunct at h
        unfold inWordPuncRune wordPuncRunes
        rcases h with h | h | h <;> subst h <;> rfl
      unfold runeCat
      simp [e1, e2]

/-- Inside a word, runes that are word characters or punctuation only update `prevCat`. -/
theorem wordsLoop_inside (T : UnicodeTables) (str : Bytes) (oc : Bool) (L : List (Nat × Nat))
    (hL : ∀ x ∈ L, runeCat T x.2 = wordRune ∨ runeCat T x.2 = wordPuncRune)
    (arr : List Bytes) (p : Nat) (o : Nat) (cnt : Nat)
    (hp : p = wordRune ∨ p = wordPuncRune) :
    ∃ q, (q = wordRune ∨ q = wordPuncRune) ∧
      wordsLoop T str oc L ⟨arr, p, (o : Int), cnt⟩ = .ok ⟨arr, q, (o : Int), cnt⟩ := by
  induction L generalizing p with
  | nil => exact ⟨p, hp, rfl⟩
  | cons x L ih =>
    have hx := hL x (by simp)
    have hstep : wordsStep T str oc ⟨arr, p, (o : Int), cnt⟩ x =
        .ok ⟨arr, runeCat T x.2, (o : Int), cnt⟩ := by
      unfold wordsStep
      simp only []
      rw [if_neg (by omega), if_neg (by
        rintro ⟨h1, _⟩
        rcases hx with h | h <;> rw [h] at h1 <;> exact absurd h1 (by decide))]
    obtain ⟨q, hq, hl⟩ := ih (fun y hy => hL y (by simp [hy])) (runeCat T x.2) hx
    exact ⟨q, hq, by simp only [wordsLoop, hstep, hl]⟩

/-- The loop over one token, entered outside a word: the word starts at the token's offset. -/
theorem wordsLoop_token (T : UnicodeTables) (str : Bytes) (oc : Bool) (t : Bytes)
    (ht : IsToken T t) (arr : List Bytes) (o cnt : Nat) :
    ∃ q, (q = wordRune ∨ q = wordPuncRune) ∧
      wordsLoop T str oc (rangeAt t o) ⟨arr, nonWordRune, -1, cnt⟩ =
        .ok ⟨arr, q, (o : Int), cnt⟩ := by
  obtain ⟨hne, hhead, hall⟩ := ht
  have hr := rangeAt_map_snd t o
  rw [rangeAt_cons t o hne] at hr ⊢
  rw [List.map_cons] at hr
  rw [← hr] at hhead hall
  have h0 : IsWordChar T (DecodeRuneInString t).1 := hhead _ (by simp)
  have hc0 := runeCat_of_wordChar T _ h0
  have hstep : wordsStep T str oc ⟨arr, nonWordRune, -1, cnt⟩ (o, (DecodeRuneInString t).1) =
      .ok ⟨arr, wordRune, (o : Int), cnt⟩ := by
    unfold wordsStep
    simp only [hc0]
    rw [if_pos (by decide)]
  obtain ⟨q, hq, hl⟩ := wordsLoop_inside T str oc
    (rangeAt (t.drop (DecodeRuneInString t).2) (o + (DecodeRuneInString t).2))
    (by
      intro x hx
      apply runeCat_of_token_rune
      apply hall
      simp only [List.mem_cons, List.mem_map]
      exact Or.inr ⟨x, hx, rfl⟩)
    arr wordRune o cnt (Or.inl rfl)
  exact ⟨q, hq, by simp only [wordsLoop, hstep, hl]⟩

theorem runeCat_space (T : UnicodeTables) : runeCat T 0x20 = nonWordRune := rfl

theorem words_eq_wordsFrom (T : UnicodeTables) (str : Bytes) :
    words T str false = wordsFrom T str (rangeStr str) ⟨[], nonWordRune, -1, 0⟩ := by
  unfold words wordsFrom wordsFinish
  cases wordsLoop T str false (rangeStr str) ⟨[], nonWordRune, -1, 0⟩ with
  | error e => rfl
  | ok st => simp

theorem wordsStep_space (T : UnicodeTables) (pre t u : Bytes) (arr : List Bytes) (q cnt : Nat)
    (hq : q = wordRune ∨ q = wordPuncRune) :
    wordsStep T (pre ++ (t ++ 0x20 :: u)) false ⟨arr, q, (pre.length : Int), cnt⟩
        (pre.length + t.length, 0x20) =
      .ok ⟨arr ++ [t], nonWordRune, -1, cnt + 1⟩ := by
  have hs : sliceFromTo (pre ++ (t ++ 0x20 :: u)) (pre.length : Int)
      ((pre.length + t.length : Nat) : Int) = .ok t := by
    unfold sliceFromTo
    rw [if_pos ⟨by omega, by omega, by simp only [List.length_append, List.length_cons]; omega⟩]
    simp only [Int.toNat_ofNat]
    rw [← List.append_assoc, List.take_append_of_le_length (by simp),
      List.take_of_length_le (by simp), List.drop_left']
    rfl
  unfold wordsStep
  simp only [runeCat_space]
  rw [if_neg (by rintro ⟨h, _⟩; exact absurd h (by decide)), if_pos ⟨trivial, hq, by omega⟩]
  simp only [Bool.not_false, if_true, hs]

/-- The listing run over tokens joined by single spaces, started outside a word at the
offset `len(pre)` of the string `pre ++ joinSpace ts`. -/
theorem words_tokens_from (T : UnicodeTables) (ts : List Bytes) (hne : ts ≠ [])
    (hts : ∀ t ∈ ts, IsToken T t) (pre : Bytes) (arr : List Bytes) (cnt : Nat) :
    wordsFrom T (pre ++ joinSpace ts) (rangeAt (joinSpace ts) pre.length)
        ⟨arr, nonWordRune, -1, cnt⟩ = .ok (arr ++ ts, cnt + ts.length) := by
  unfold wordsFrom
  induction ts generalizing pre arr cnt with
  | nil => exact absurd rfl hne
  | cons t ts ih =>
    have ht : IsToken T t := hts t (by simp)
    cases ts with
    | nil =>
      obtain ⟨q, _, hl⟩ := wordsLoop_token T (pre ++ t) false t ht arr pre.length cnt
      simp only [joinSpace]
      rw [hl]
      have hs : sliceFrom (pre ++ t) (pre.length : Int) = .ok t := by
        unfold sliceFrom
        rw [if_pos ⟨by omega, by simp only [List.length_append]; omega⟩]
        simp
      simp only [wordsFinish]
      rw [if_pos (by omega)]
      simp only [hs, List.length_singleton]
    | cons t' rest =>
      have hJ : joinSpace (t :: t' :: rest) = t ++ 0x20 :: joinSpace (t' :: rest) := rfl
      rw [hJ]
      generalize hJ' : joinSpace (t' :: rest) = J at *
      obtain ⟨q, hq, hl⟩ := wordsLoop_token T (pre ++ (t ++ 0x20 :: J)) false t ht arr
        pre.length cnt
      rw [rangeAt_append_ascii t J 0x20 pre.length (by omega), wordsLoop_append, hl]
      simp only [wordsLoop]
      rw [wordsStep_space T pre t J arr q cnt hq]
      simp only []
      have := ih (by simp) (fun x hx => hts x (by simp [hx])) (pre ++ t ++ [0x20]) (arr ++ [t])
        (cnt + 1)
      have e1 : pre ++ t ++ [0x20] ++ J = pre ++ (t ++ 0x20 :: J) := by simp
      have e2 : (pre ++ t ++ [0x20]).length = pre.length + t.length + 1 := by
        simp only [List.length_append, List.length_singleton]
      rw [e1, e2] at this
      rw [this]
      simp only [List.append_assoc, List.singleton_append, List.length_cons]
      congr 2
      omega

/-- C9: for a non-empty list of tokens, each non-empty, beginning with a letter or digit and
made only of letters, digits and `'`, `-`, `_`, `Words` of the tokens joined by single spaces
returns exactly the tokens. -/
theorem C9_words_of_joined_tokens (T : UnicodeTables) (ts : List Bytes) (hne : ts ≠ [])
    (hts : ∀ t ∈ ts, IsToken T t) :
    Words T (joinSpace ts) = .ok ts := by
  have := words_tokens_from T ts hne hts [] [] 0
  simp only [List.nil_append, List.length_nil, Nat.zero_add] at this
  unfold Words
  rw [words_eq_wordsFrom, rangeStr_eq_rangeAt, this]
  rfl

/-- The witness of C9: `Words("O'Neil micro-service 42")` is
`["O'Neil", "micro-service", "42"]`. -/
theorem C9_words_of_joined_tokens_witness :
    ([[0x4F, 0x27, 0x4E, 0x65, 0x69, 0x6C],
      [0x6D, 0x69, 0x63, 0x72, 0x6F, 0x2D, 0x73, 0x65, 0x72, 0x76, 0x69, 0x63, 0x65],
      [0x34, 0x32]] : List Bytes) ≠ [] ∧
    (∀ t ∈ ([[0x4F, 0x27, 0x4E, 0x65, 0x69, 0x6C],
      [0x6D, 0x69, 0x63, 0x72, 0x6F, 0x2D, 0x73, 0x65, 0x72, 0x76, 0x69, 0x63, 0x65],
      [0x34, 0x32]] : List Bytes), IsToken latin1Tables t) ∧
    Words latin1Tables (joinSpace [[0x4F, 0x27, 0x4E, 0x65, 0x69, 0x6C],
      [0x6D, 0x69, 0x63, 0x72, 0x6F, 0x2D, 0x73, 0x65, 0x72, 0x76, 0x69, 0x63, 0x65],
      [0x34, 0x32]]) =
    .ok [[0x4F, 0x27, 0x4E, 0x65, 0x69, 0x6C],
      [0x6D, 0x69, 0x63, 0x72, 0x6F, 0x2D, 0x73, 0x65, 0x72, 0x76, 0x69, 0x63, 0x65],
      [0x34, 0x32]] :=
  ⟨by decide, by decide,
    C9_words_of_joined_tokens latin1Tables _ (by decide) (by decide)⟩

/-! ### Successful calls of `SafeSubstring` -/

theorem runeSlice_ne_nil (s : Bytes) (a b : Nat) (hab : a < b) (hb : b ≤ UTF8Len s) :
    runeSlice s a b ≠ [] := by
  have hlen := UTF8Len_runeSlice s a b hb
  intro h0
  rw [h0] at hlen
  have : UTF8Len [] = 0 := by decide
  omega

/-- C19: when `SafeSubstring(s, start, end)` returns a nil error its result is not the empty
string; on the empty string every call returns an error. -/
theorem C19_safeSubstring_nonempty (s : Bytes) (start end_ : Int) :
    (∀ res, SafeSubstring s start end_ = .ok (res, none) → res ≠ []) ∧
    (∃ e, SafeSubstring [] start end_ = .ok ([], some e)) := by
  constructor
  · intro res hres
    by_cases h : start < 0 ∨ (UTF8Len s : Int) ≤ start ∨ (end_ ≠ 0 ∧ end_ ≤ start) ∨
        (UTF8Len s : Int) < end_
    · obtain ⟨e, he⟩ := safeSubstring_err s start end_ h
      rw [he] at hres
      simp at hres
    · obtain ⟨a, rfl⟩ := Int.eq_ofNat_of_zero_le (by omega : 0 ≤ start)
      by_cases he : end_ = 0
      · subst he
        rw [safeSubstring_ok_zero s a (by omega)] at hres
        simp only [Except.ok.injEq, Prod.mk.injEq, and_true] at hres
        rw [← hres]
        exact runeSlice_ne_nil s a _ (by omega) (le_refl _)
      · obtain ⟨b, rfl⟩ := Int.eq_ofNat_of_zero_le (by omega : 0 ≤ end_)
        rw [safeSubstring_ok_end s a b (by omega) (by omega)] at hres
        simp only [Except.ok.injEq, Prod.mk.injEq, and_true] at hres
        rw [← hres]
        exact runeSlice_ne_nil s a b (by omega) (by omega)
  · apply safeSubstring_err
    have : UTF8Len [] = 0 := by decide
    rw [this]
    omega

theorem C19_safeSubstring_nonempty_witness :
    SafeSubstring [0xC3, 0xA9, 0x61] 0 1 = .ok ([0xC3, 0xA9], none) ∧
    ([0xC3, 0xA9] : Bytes) ≠ [] ∧
    ∃ e, SafeSubstring [] 0 0 = .ok ([], some e) :=
  ⟨by decide,
    (C19_safeSubstring_nonempty [0xC3, 0xA9, 0x61] 0 1).1 [0xC3, 0xA9] (by decide),
    (C19_safeSubstring_nonempty [] 0 0).2⟩

/-! ## `Splice` -/

theorem encodeRuneBytes_encRune (c : Bytes) (h : IsEncoding c) :
    encodeRuneBytes (encRune c) = c := by
  have hl := isEncoding_length h
  have key := encodeRune_encRune c (List.replicate c.length 0)
    (List.replicate (4 - c.length) 0) h (by simp)
  have h4 : List.replicate c.length 0 ++ List.replicate (4 - c.length) 0 = [0, 0, 0, 0] := by
    rw [← List.replicate_add, show c.length + (4 - c.length) = 4 by omega]
    rfl
  rw [h4] at key
  unfold encodeRuneBytes
  rw [key]
  simp

theorem encodeRuneBytes_runeError : encodeRuneBytes RuneError = [0xEF, 0xBF, 0xBD] := by
  decide

theorem isEncoding_decode_ne_error (c : Bytes) (h : IsEncoding c) :
    (encRune c, c.length) ≠ (RuneError, 1) := by
  intro he
  simp only [Prod.mk.injEq] at he
  exact encRune_ne_error h he.2 he.1

theorem reencode_eq_replaceInvalid (x : Bytes) : reencode x = replaceInvalid x := by
  unfold reencode replaceInvalid stringOfRunes
  rw [runes_eq_map, List.map_map]
  congr 1
  apply List.map_congr_left
  intro c hc
  simp only [Function.comp]
  rcases runeBytes_chunk x c hc with ⟨he, hd⟩ | ⟨a, rfl, _, hd⟩
  · rw [hd, if_neg (isEncoding_decode_ne_error c he)]
    exact encodeRuneBytes_encRune c he
  · rw [hd, if_pos rfl]
    exact encodeRuneBytes_runeError

theorem replaceInvalid_of_valid (x : Bytes) (h : ValidUTF8 x) : replaceInvalid x = x := by
  obtain ⟨L, hL, rfl⟩ := h
  unfold replaceInvalid
  rw [runeBytes_of_encodings L hL]
  congr 1
  conv_rhs => rw [← List.map_id L]
  apply List.map_congr_left
  intro c hc
  have := decode_enc_append c [] (hL c hc)
  rw [List.append_nil] at this
  rw [this, if_neg (isEncoding_decode_ne_error c (hL c hc))]
  rfl

theorem take_runeOffset (s : Bytes) (a : Nat) :
    s.take (runeOffset s a) = ((runeBytes s).take a).flatten := by
  have := flatten_take_take (runeBytes s) a
  rw [runeBytes_flatten] at this
  exact this

theorem drop_runeOffset (s : Bytes) (b : Nat) :
    s.drop (runeOffset s b) = ((runeBytes s).drop b).flatten := by
  have := flatten_drop_take (runeBytes s) b
  rw [runeBytes_flatten] at this
  exact this

theorem runes_take_runeOffset (s : Bytes) (a : Nat) :
    runes (s.take (runeOffset s a)) = (runes s).take a := by
  have h := runes_runeSlice s 0 a
  unfold runeSlice at h
  simp only [List.drop_zero, Nat.sub_zero] at h
  rw [take_runeOffset, h]

theorem runes_drop_runeOffset (s : Bytes) (b : Nat) :
    runes (s.drop (runeOffset s b)) = (runes s).drop b := by
  have h := runes_runeSlice s b (UTF8Len s)
  rw [runeSlice_count s b _ (le_refl _)] at h
  rw [drop_runeOffset, h, List.take_of_length_le]
  rw [List.length_drop, runes_length]

/-- `Splice` inside the bounds: the two kept parts are decoded and encoded again. -/
theorem splice_ok (s repl : Bytes) (a b : Nat) (hs : s ≠ []) (hab : a < b)
    (hb : b ≤ UTF8Len s) :
    Splice s repl a b = .ok (replaceInvalid (s.take (runeOffset s a)) ++ repl ++
      replaceInvalid (s.drop (runeOffset s b))) := by
  have hl := runes_length s
  unfold Splice
  rw [if_neg hs]
  simp only []
  rw [if_neg (by omega), if_neg (by omega)]
  have h1 : sliceTo (runes s) (a : Int) = .ok ((runes s).take a) := by
    unfold sliceTo
    rw [if_pos ⟨by omega, by omega⟩]
    rfl
  have h2 : sliceFrom (runes s) (b : Int) = .ok ((runes s).drop b) := by
    unfold sliceFrom
    rw [if_pos ⟨by omega, by omega⟩]
    rfl
  rw [h1, h2]
  simp only []
  rw [← reencode_eq_replaceInvalid, ← reencode_eq_replaceInvalid]
  unfold reencode
  rw [runes_take_runeOffset, runes_drop_runeOffset]

theorem validUTF8_take (s : Bytes) (h : ValidUTF8 s) (a : Nat) :
    ValidUTF8 (s.take (runeOffset s a)) := by
  obtain ⟨L, hL, rfl⟩ := h
  rw [take_runeOffset, runeBytes_of_encodings L hL]
  exact ⟨L.take a, fun c hc => hL c (List.mem_of_mem_take hc), rfl⟩

theorem validUTF8_drop (s : Bytes) (h : ValidUTF8 s) (b : Nat) :
    ValidUTF8 (s.drop (runeOffset s b)) := by
  obtain ⟨L, hL, rfl⟩ := h
  rw [drop_runeOffset, runeBytes_of_encodings L hL]
  exact ⟨L.drop b, fun c hc => hL c (List.mem_of_mem_drop hc), rfl⟩

theorem splice_panics (s repl : Bytes) (start end_ : Int) (hs : s ≠ [])
    (h : start < 0 ∨ (UTF8Len s : Int) ≤ start ∨ end_ ≤ start ∨ (UTF8Len s : Int) < end_) :
    ∃ p, Splice s repl start end_ = .error p := by
  have hl := runes_length s
  unfold Splice
  rw [if_neg hs]
  simp only []
  by_cases h1 : start < 0 ∨ start > ((runes s).length : Int) - 1
  · rw [if_pos h1]
    exact ⟨_, rfl⟩
  · rw [if_neg h1, if_pos (by omega)]
    exact ⟨_, rfl⟩

/-- C11 as stated fails on a string that is not valid UTF-8: in `Splice` of the bytes
`0xff 'a' 'b'` with `"X"` at the code points `[1, 2)` the part before code point 1 is the
byte `0xff`, but the result starts with `0xef 0xbf 0xbd`. -/
theorem C11_splice_invalid_prefix :
    ([0xFF, 0x61, 0x62] : Bytes) ≠ [] ∧ (0 : Int) ≤ 1 ∧ (1 : Int) < 2 ∧
    (2 : Int) ≤ (UTF8Len [0xFF, 0x61, 0x62] : Int) ∧
    ([0xFF, 0x61, 0x62] : Bytes).take (runeOffset [0xFF, 0x61, 0x62] 1) = [0xFF] ∧
    ([0xFF, 0x61, 0x62] : Bytes).drop (runeOffset [0xFF, 0x61, 0x62] 2) = [0x62] ∧
    Splice [0xFF, 0x61, 0x62] [0x58] 1 2 = .ok [0xEF, 0xBF, 0xBD, 0x58, 0x62] ∧
    Splice [0xFF, 0x61, 0x62] [0x58] 1 2 ≠ .ok ([0xFF] ++ [0x58] ++ [0x62]) := by
  decide

/-- C11 (amended): for non-empty `s` and `0 ≤ start < end ≤ UTF8Len(s)`, `Splice` does not
panic and returns the part of `s` before code point `start`, then `replacement` verbatim,
then the part of `s` from code point `end` on, where in the two kept parts every byte that
is not part of a well-formed encoding is replaced by the encoding of U+FFFD; a kept part
that is valid UTF-8 is unchanged, and for valid UTF-8 `s` both are. -/
theorem C11_splice_result (s repl : Bytes) (start end_ : Int) (hs : s ≠ []) (h0 : 0 ≤ start)
    (h1 : start < end_) (h2 : end_ ≤ (UTF8Len s : Int)) :
    Splice s repl start end_ =
      .ok (replaceInvalid (s.take (runeOffset s start.toNat)) ++ repl ++
        replaceInvalid (s.drop (runeOffset s end_.toNat))) ∧
    (ValidUTF8 (s.take (runeOffset s start.toNat)) →
      replaceInvalid (s.take (runeOffset s start.toNat)) = s.take (runeOffset s start.toNat)) ∧
    (ValidUTF8 (s.drop (runeOffset s end_.toNat)) →
      replaceInvalid (s.drop (runeOffset s end_.toNat)) = s.drop (runeOffset s end_.toNat)) ∧
    (ValidUTF8 s → Splice s repl start end_ =
      .ok (s.take (runeOffset s start.toNat) ++ repl ++ s.drop (runeOffset s end_.toNat))) := by
  obtain ⟨a, rfl⟩ := Int.eq_ofNat_of_zero_le h0
  obtain ⟨b, rfl⟩ := Int.eq_ofNat_of_zero_le (by omega : 0 ≤ end_)
  have hsp := splice_ok s repl a b hs (by omega) (by omega)
  refine ⟨hsp, replaceInvalid_of_valid _, replaceInvalid_of_valid _, ?_⟩
  intro hv
  rw [hsp]
  simp only [Int.toNat_ofNat]
  rw [replaceInvalid_of_valid _ (validUTF8_take s hv a),
    replaceInvalid_of_valid _ (validUTF8_drop s hv b)]

/-- The witness of C11: `Splice("hello", "XY", 1, 3) == "hXYlo"`. -/
theorem C11_splice_result_witness :
    ([0x68, 0x65, 0x6C, 0x6C, 0x6F] : Bytes) ≠ [] ∧ (0 : Int) ≤ 1 ∧ (1 : Int) < 3 ∧
    (3 : Int) ≤ (UTF8Len [0x68, 0x65, 0x6C, 0x6C, 0x6F] : Int) ∧
    Splice [0x68, 0x65, 0x6C, 0x6C, 0x6F] [0x58, 0x59] 1 3 = .ok [0x68, 0x58, 0x59, 0x6C, 0x6F] ∧
    Splice [0x68, 0x65, 0x6C, 0x6C, 0x6F] [0x58, 0x59] 1 3 =
      .ok (replaceInvalid (([0x68, 0x65, 0x6C, 0x6C, 0x6F] : Bytes).take
          (runeOffset [0x68, 0x65, 0x6C, 0x6C, 0x6F] (1 : Int).toNat)) ++ [0x58, 0x59] ++
        replaceInvalid (([0x68, 0x65, 0x6C, 0x6C, 0x6F] : Bytes).drop
          (runeOffset [0x68, 0x65, 0x6C, 0x6C, 0x6F] (3 : Int).toNat))) :=
  ⟨by decide, by decide, by decide, by decide, by decide,
    (C11_splice_result [0x68, 0x65, 0x6C, 0x6C, 0x6F] [0x58, 0x59] 1 3 (by decide) (by decide)
      (by decide) (by decide)).1⟩

/-- C12: for non-empty `s`, `Splice` panics exactly when `start < 0`, or
`start ≥ UTF8Len(s)`, or `end ≤ start`, or `end > UTF8Len(s)` (bounds in code points;
`end = 0` is no sentinel). -/
theorem C12_splice_panics_iff (s repl : Bytes) (start end_ : Int) (hs : s ≠ []) :
    (start < 0 ∨ (UTF8Len s : Int) ≤ start ∨ end_ ≤ start ∨ (UTF8Len s : Int) < end_) ↔
      ∃ p, Splice s repl start end_ = .error p := by
  constructor
  · exact splice_panics s repl start end_ hs
  · rintro ⟨p, hp⟩
    by_contra hc
    obtain ⟨a, rfl⟩ := Int.eq_ofNat_of_zero_le (by omega : 0 ≤ start)
    obtain ⟨b, rfl⟩ := Int.eq_ofNat_of_zero_le (by omega : 0 ≤ end_)
    rw [splice_ok s repl a b hs (by omega) (by omega)] at hp
    simp at hp

theorem C12_splice_panics_iff_witness :
    ([0xC3, 0xA9] : Bytes) ≠ [] ∧
    (((0 : Int) < 0 ∨ (UTF8Len [0xC3, 0xA9] : Int) ≤ 0 ∨ (2 : Int) ≤ 0 ∨
        (UTF8Len [0xC3, 0xA9] : Int) < 2) ↔
      ∃ p, Splice [0xC3, 0xA9] [0x58] 0 2 = .error p) ∧
    Splice [0xC3, 0xA9] [0x58] 0 2 = .error (.spliceEnd 2 1) ∧
    Splice [0xC3, 0xA9] [0x58] 0 0 = .error (.spliceEnd 0 1) :=
  ⟨by decide, C12_splice_panics_iff [0xC3, 0xA9] [0x58] 0 2 (by decide), by decide, by decide⟩

/-- C13: `Splice("", replacement, start, end)` returns `""` for all `start` and `end`, and
does not panic. -/
theorem C13_splice_empty (repl : Bytes) (start end_ : Int) :
    Splice [] repl start end_ = .ok [] := by
  unfold Splice
  rw [if_pos rfl]

/-- C20: for non-empty valid UTF-8 `s` and `0 ≤ start < end ≤ UTF8Len(s)`,
`Splice(s, Substring(s, start, end), start, end) == s`. -/
theorem C20_splice_substring (s : Bytes) (start end_ : Int) (hs : s ≠ []) (hv : ValidUTF8 s)
    (h0 : 0 ≤ start) (h1 : start < end_) (h2 : end_ ≤ (UTF8Len s : Int)) :
    ∃ sub, Substring s start end_ = .ok sub ∧ Splice s sub start end_ = .ok s := by
  obtain ⟨a, rfl⟩ := Int.eq_ofNat_of_zero_le h0
  obtain ⟨b, rfl⟩ := Int.eq_ofNat_of_zero_le (by omega : 0 ≤ end_)
  have hsub := safeSubstring_ok_end s a b (by omega) (by omega)
  refine ⟨runeSlice s a b, by unfold Substring; rw [hsub], ?_⟩
  rw [splice_ok s _ a b hs (by omega) (by omega),
    replaceInvalid_of_valid _ (validUTF8_take s hv a),
    replaceInvalid_of_valid _ (validUTF8_drop s hv b), take_runeOffset, drop_runeOffset]
  unfold runeSlice
  congr 1
  rw [← List.flatten_append, ← List.flatten_append]
  conv_rhs => rw [← runeBytes_flatten s]
  congr 1
  have e1 : ((runeBytes s).drop a).take (b - a) ++ (runeBytes s).drop b = (runeBytes s).drop a := by
    have := List.take_append_drop (b - a) ((runeBytes s).drop a)
    rw [List.drop_drop, show a + (b - a) = b by omega] at this
    exact this
  rw [List.append_assoc, e1, List.take_append_drop]

theorem C20_splice_substring_witness :
    ([0x61, 0xC3, 0xA9, 0xE2, 0x82, 0xAC] : Bytes) ≠ [] ∧
    ValidUTF8 [0x61, 0xC3, 0xA9, 0xE2, 0x82, 0xAC] ∧ (0 : Int) ≤ 1 ∧ (1 : Int) < 2 ∧
    (2 : Int) ≤ (UTF8Len [0x61, 0xC3, 0xA9, 0xE2, 0x82, 0xAC] : Int) ∧
    ∃ sub, Substring [0x61, 0xC3, 0xA9, 0xE2, 0x82, 0xAC] 1 2 = .ok sub ∧
      Splice [0x61, 0xC3, 0xA9, 0xE2, 0x82, 0xAC] sub 1 2 =
        .ok [0x61, 0xC3, 0xA9, 0xE2, 0x82, 0xAC] :=
  ⟨by decide, ⟨[[0x61], [0xC3, 0xA9], [0xE2, 0x82, 0xAC]], by simp [IsEncoding], rfl⟩,
    by decide, by decide, by decide,
    C20_splice_substring [0x61, 0xC3, 0xA9, 0xE2, 0x82, 0xAC] 1 2 (by decide)
      ⟨[[0x61], [0xC3, 0xA9], [0xE2, 0x82, 0xAC]], by simp [IsEncoding], rfl⟩
      (by decide) (by decide) (by decide)⟩

/-! ## `MapLines` -/

theorem hasPrefix_singleton (b c : Nat) (t : Bytes) : HasPrefix (b :: t) [c] = (c == b) := by
  simp [HasPrefix, List.isPrefixOf]

theorem index_none_of_not_mem (c : Nat) (l : Bytes) (h : c ∉ l) : Index l [c] = none := by
  induction l with
  | nil => simp [Index, HasPrefix, List.isPrefixOf]
  | cons b t ih =>
    have hb : c ≠ b := fun e => h (by simp [e])
    have ht : c ∉ t := fun e => h (by simp [e])
    simp [Index, hasPrefix_singleton, hb, ih ht]

theorem index_append_sep (c : Nat) (l rest : Bytes) (h : c ∉ l) :
    Index (l ++ c :: rest) [c] = some l.length := by
  induction l with
  | nil => simp [Index, hasPrefix_singleton]
  | cons b t ih =>
    have hb : c ≠ b := fun e => h (by simp [e])
    have ht : c ∉ t := fun e => h (by simp [e])
    simp [Index, hasPrefix_singleton, hb, ih ht]

theorem index_bound (sep : Bytes) (s : Bytes) (m : Nat) (h : Index s sep = some m) :
    m + sep.length ≤ s.length := by
  induction s generalizing m with
  | nil =>
    simp only [Index, HasPrefix] at h
    split at h
    · rename_i hp
      have : sep = [] := by
        cases sep with
        | nil => rfl
        | cons x t => simp [List.isPrefixOf] at hp
      simp only [Option.some.injEq] at h
      subst h
      simp [this]
    · exact absurd h (by simp)
  | cons b t ih =>
    simp only [Index] at h
    split at h
    · rename_i hp
      simp only [Option.some.injEq] at h
      subst h
      have := List.IsPrefix.length_le (List.isPrefixOf_iff_prefix.mp hp)
      omega
    · cases hi : Index t sep with
      | none => rw [hi] at h; exact absurd h (by simp)
      | some m' =>
        rw [hi] at h
        simp only [Option.map_some', Option.some.injEq] at h
        have := ih m' hi
        simp only [List.length_cons]
        omega

/-- For a non-empty separator, more fuel than `len(s)` does not change the result. -/
theorem splitLoop_fuel (sep : Bytes) (hsep : sep ≠ []) (f g : Nat) (s : Bytes)
    (hf : s.length ≤ f) (hg : s.length ≤ g) : splitLoop sep f s = splitLoop sep g s := by
  have hpos : 1 ≤ sep.length := by
    cases sep with
    | nil => exact absurd rfl hsep
    | cons x t => simp
  have hnil : ∀ s : Bytes, s.length = 0 → Index s sep = none := by
    intro s hs
    cases hi : Index s sep with
    | none => rfl
    | some m =>
      have := index_bound sep s m hi
      omega
  induction f generalizing g s with
  | zero =>
    cases g with
    | zero => rfl
    | succ g => simp only [splitLoop, hnil s (by omega)]
  | succ f ih =>
    cases g with
    | zero => simp only [splitLoop, hnil s (by omega)]
    | succ g =>
      simp only [splitLoop]
      cases hi : Index s sep with
      | none => rfl
      | some m =>
        have := index_bound sep s m hi
        simp only []
        rw [ih g _ (by rw [List.length_drop]; omega) (by rw [List.length_drop]; omega)]

theorem join_cons_cons (a b : Bytes) (rest : List Bytes) (sep : Bytes) :
    Join (a :: b :: rest) sep = a ++ sep ++ Join (b :: rest) sep := rfl

theorem join_length_ge (ls : List Bytes) (c : Nat) : ls.length - 1 ≤ (Join ls [c]).length := by
  induction ls with
  | nil => simp
  | cons a rest ih =>
    cases rest with
    | nil => simp
    | cons b rest =>
      rw [join_cons_cons]
      simp only [List.length_cons, List.length_append, List.length_singleton] at ih ⊢
      omega

/-- Splitting the lines joined by the separator byte gives the lines back. -/
theorem splitLoop_join (c : Nat) (ls : List Bytes) (hne : ls ≠ []) (h : ∀ l ∈ ls, c ∉ l)
    (fuel : Nat) (hf : ls.length - 1 ≤ fuel) :
    splitLoop [c] fuel (Join ls [c]) = ls := by
  induction ls generalizing fuel with
  | nil => exact absurd rfl hne
  | cons a rest ih =>
    have ha : c ∉ a := h a (by simp)
    cases rest with
    | nil =>
      have hi : Index a [c] = none := index_none_of_not_mem c a ha
      cases fuel with
      | zero => rfl
      | succ f => simp only [Join, splitLoop, hi]
    | cons b rest =>
      obtain ⟨f, rfl⟩ : ∃ f, fuel = f + 1 := ⟨fuel - 1, by simp at hf; omega⟩
      rw [join_cons_cons]
      have hi : Index (a ++ [c] ++ Join (b :: rest) [c]) [c] = some a.length := by
        rw [List.append_assoc]
        exact index_append_sep c a _ ha
      have e1 : (a ++ [c] ++ Join (b :: rest) [c]).take a.length = a := by
        rw [List.append_assoc, List.take_left']
        rfl
      have e2 : (a ++ [c] ++ Join (b :: rest) [c]).drop (a.length + 1) =
          Join (b :: rest) [c] := by
        rw [List.drop_left']
        simp
      simp only [splitLoop, hi, List.length_singleton]
      rw [e1, e2, ih (by simp) (fun l hl => h l (by simp [hl])) f (by simp at hf ⊢; omega)]

theorem split_join (c : Nat) (ls : List Bytes) (hne : ls ≠ []) (h : ∀ l ∈ ls, c ∉ l) :
    Split (Join ls [c]) [c] = ls := by
  unfold Split
  rw [if_neg (by simp)]
  exact splitLoop_join c ls hne h _ (join_length_ge ls c)

/-- C14: for a non-empty list of lines without `"\n"` (any of them may be empty),
`MapLines` of the lines joined by `"\n"` is `fn` of each line, in order, joined by `"\n"`;
`MapLines("", fn) == fn("")`. -/
theorem C14_mapLines_join (ls : List Bytes) (fn : Bytes → Bytes) (hne : ls ≠ [])
    (h : ∀ l ∈ ls, 0x0A ∉ l) :
    MapLines (Join ls [0x0A]) fn = Join (ls.map fn) [0x0A] ∧ MapLines [] fn = fn [] := by
  constructor
  · unfold MapLines
    rw [split_join 0x0A ls hne h]
  · rfl

/-- The witness of C14: upper-casing `"a\nb\nc"` gives `"A\nB\nC"`; the last line may be
empty. -/
theorem C14_mapLines_join_witness :
    ([[0x61], [0x62], []] : List Bytes) ≠ [] ∧
    (∀ l ∈ ([[0x61], [0x62], []] : List Bytes), 0x0A ∉ l) ∧
    (MapLines (Join [[0x61], [0x62], []] [0x0A]) (fun l => l.map (fun b => b - 0x20)) =
        Join (([[0x61], [0x62], []] : List Bytes).map (fun l => l.map (fun b => b - 0x20)))
          [0x0A] ∧
      MapLines [] (fun l => l.map (fun b => b - 0x20)) = [].map (fun b => b - 0x20)) ∧
    MapLines [0x61, 0x0A, 0x62, 0x0A, 0x63] (fun l => l.map (fun b => b - 0x20)) =
      [0x41, 0x0A, 0x42, 0x0A, 0x43] ∧
    MapLines [0x61, 0x0A] (fun l => 0x3E :: l) = [0x3E, 0x61, 0x0A, 0x3E] :=
  ⟨by decide, by decide,
    C14_mapLines_join [[0x61], [0x62], []] (fun l => l.map (fun b => b - 0x20)) (by decide)
      (by decide),
    by decide, by decide⟩

/-! ## `ReplaceAllToOne` -/

theorem hasPrefix_iff (s p : Bytes) : HasPrefix s p = true ↔ List.IsPrefix p s := by
  unfold HasPrefix
  exact List.isPrefixOf_iff_prefix

theorem isPrefix_length_le {p s : Bytes} (h : List.IsPrefix p s) : p.length ≤ s.length :=
  List.IsPrefix.length_le h

theorem replacerLookup_spec (oldnew : List (Bytes × Bytes)) (s : Bytes) (pe : Bool)
    (old new : Bytes) (h : replacerLookup oldnew s pe = some (old, new)) :
    List.IsPrefix old s ∧ (pe = true → old ≠ []) := by
  unfold replacerLookup at h
  have := List.find?_some h
  simp only [Bool.and_eq_true, Bool.not_eq_true', Bool.and_eq_false_iff] at this
  refine ⟨(hasPrefix_iff s old).mp this.1, ?_⟩
  intro hpe hold
  rcases this.2 with h1 | h1
  · rw [hpe] at h1; exact absurd h1 (by decide)
  · rw [hold] at h1; exact absurd h1 (by decide)

/-- More fuel than `2 * len(s) + 2` (one less after an empty match) does not change the
result of the scan. -/
theorem replaceLoop_fuel (oldnew : List (Bytes × Bytes)) (f g : Nat) (s : Bytes) (pe : Bool)
    (hf : 2 * s.length + (if pe then 1 else 2) ≤ f)
    (hg : 2 * s.length + (if pe then 1 else 2) ≤ g) :
    replaceLoop oldnew f s pe = replaceLoop oldnew g s pe := by
  induction f generalizing g s pe with
  | zero => cases pe <;> simp at hf
  | succ f ih =>
    obtain ⟨g, rfl⟩ : ∃ g', g = g' + 1 := ⟨g - 1, by cases pe <;> simp at hg <;> omega⟩
    simp only [replaceLoop]
    cases hlk : replacerLookup oldnew s pe with
    | none =>
      cases s with
      | nil => rfl
      | cons b t =>
        simp only []
        rw [ih g t false (by cases pe <;> simp at hf ⊢ <;> omega)
          (by cases pe <;> simp at hg ⊢ <;> omega)]
    | some pr =>
      obtain ⟨old, new⟩ := pr
      obtain ⟨hpre, hne⟩ := replacerLookup_spec oldnew s pe old new hlk
      have hlen := isPrefix_length_le hpre
      simp only []
      congr 1
      have hmu : 2 * (s.drop old.length).length + (if old.isEmpty then 1 else 2) + 1 ≤
          2 * s.length + (if pe then 1 else 2) := by
        rw [List.length_drop]
        cases old with
        | nil =>
          cases pe with
          | true => exact absurd rfl (hne rfl)
          | false => simp
        | cons x old =>
          simp only [List.isEmpty_cons, List.length_cons] at hlen ⊢
          cases pe <;> simp <;> omega
      exact ih g _ _ (by omega) (by omega)

theorem replaceLoop_congr (on1 on2 : List (Bytes × Bytes))
    (h : ∀ s pe, replacerLookup on1 s pe = replacerLookup on2 s pe) (f : Nat) (s : Bytes)
    (pe : Bool) : replaceLoop on1 f s pe = replaceLoop on2 f s pe := by
  induction f generalizing s pe with
  | zero => rfl
  | succ f ih =>
    simp only [replaceLoop, h s pe]
    cases replacerLookup on2 s pe with
    | none =>
      cases s with
      | nil => rfl
      | cons b t => simp only []; rw [ih]
    | some pr => simp only []; rw [ih]

theorem replaceLoop_succ (oldnew : List (Bytes × Bytes)) (f : Nat) (s : Bytes) (pe : Bool) :
    replaceLoop oldnew (f + 1) s pe =
      match replacerLookup oldnew s pe with
      | some (old, new) => new ++ replaceLoop oldnew f (s.drop old.length) old.isEmpty
      | none =>
        match s with
        | [] => []
        | b :: t => b :: replaceLoop oldnew f t false := rfl

theorem replace_match (oldnew : List (Bytes × Bytes)) (s old new : Bytes)
    (h : replacerLookup oldnew s false = some (old, new)) (hne : old ≠ []) :
    Replace oldnew s = new ++ Replace oldnew (s.drop old.length) := by
  obtain ⟨hpre, _⟩ := replacerLookup_spec oldnew s false old new h
  have hlen := isPrefix_length_le hpre
  have hpos : 1 ≤ old.length := by
    cases old with
    | nil => exact absurd rfl hne
    | cons x old => simp
  have he : old.isEmpty = false := by
    cases old with
    | nil => exact absurd rfl hne
    | cons x old => rfl
  unfold Replace
  rw [show 2 * s.length + 2 = (2 * s.length + 1) + 1 from rfl, replaceLoop_succ, h]
  simp only [he]
  congr 1
  apply replaceLoop_fuel
  · rw [List.length_drop]; simp only [Bool.false_eq_true, if_false]; omega
  · simp

theorem replace_nomatch (oldnew : List (Bytes × Bytes)) (b : Nat) (t : Bytes)
    (h : replacerLookup oldnew (b :: t) false = none) :
    Replace oldnew (b :: t) = b :: Replace oldnew t := by
  unfold Replace
  rw [show 2 * (b :: t).length + 2 = (2 * (b :: t).length + 1) + 1 from rfl, replaceLoop_succ, h]
  simp only []
  congr 1
  apply replaceLoop_fuel
  · simp only [List.length_cons, Bool.false_eq_true, if_false]; omega
  · simp

theorem replace_nil (oldnew : List (Bytes × Bytes))
    (h : replacerLookup oldnew [] false = none) : Replace oldnew [] = [] := by
  unfold Replace
  rw [show 2 * ([] : Bytes).length + 2 = 1 + 1 from rfl, replaceLoop_succ, h]

/-- The lookup of `ReplaceAllToOne`: the first pattern of `from` that is a prefix. -/
theorem lookup_pairs (from_ : List Bytes) (to_ s : Bytes) :
    replacerLookup (from_.map (fun p => (p, to_))) s false =
      (from_.find? (fun p => HasPrefix s p)).map (fun p => (p, to_)) := by
  unfold replacerLookup
  induction from_ with
  | nil => rfl
  | cons p rest ih =>
    simp only [List.map_cons, List.find?_cons, Bool.false_and, Bool.not_false, Bool.and_true]
    cases HasPrefix s p with
    | true => rfl
    | false => simpa using ih

theorem find_first (from_ l1 l2 : List Bytes) (p s : Bytes) (hf : from_ = l1 ++ p :: l2)
    (hp : List.IsPrefix p s) (hl : ∀ q ∈ l1, ¬ List.IsPrefix q s) :
    from_.find? (fun q => HasPrefix s q) = some p := by
  subst hf
  rw [List.find?_append]
  have h1 : l1.find? (fun q => HasPrefix s q) = none := by
    rw [List.find?_eq_none]
    intro q hq
    rw [hasPrefix_iff]
    exact hl q hq
  rw [h1]
  simp only [Option.none_or, List.find?_cons]
  rw [(hasPrefix_iff s p).mpr hp]

theorem find_none (from_ : List Bytes) (s : Bytes) (hl : ∀ q ∈ from_, ¬ List.IsPrefix q s) :
    from_.find? (fun q => HasPrefix s q) = none := by
  rw [List.find?_eq_none]
  intro q hq
  rw [hasPrefix_iff]
  exact hl q hq

theorem find_dup {α : Type} (P : α → Bool) (l1 l2 l3 : List α) (p : α) :
    (l1 ++ p :: l2 ++ p :: l3).find? P = (l1 ++ p :: l2 ++ l3).find? P := by
  simp only [List.find?_append, List.find?_cons]
  cases l1.find? P with
  | some x => rfl
  | none =>
    simp only [Option.none_or]
    cases hp : P p with
    | true => rfl
    | false =>
      cases l2.find? P <;> simp [hp]

theorem rto_match (from_ l1 l2 : List Bytes) (p to_ s : Bytes) (hf : from_ = l1 ++ p :: l2)
    (hne : p ≠ []) (hp : List.IsPrefix p s) (hl : ∀ q ∈ l1, ¬ List.IsPrefix q s) :
    ReplaceAllToOne s from_ to_ = to_ ++ ReplaceAllToOne (s.drop p.length) from_ to_ := by
  unfold ReplaceAllToOne
  apply replace_match _ _ p to_ _ hne
  rw [lookup_pairs, find_first from_ l1 l2 p s hf hp hl]
  rfl

theorem rto_nomatch (from_ : List Bytes) (to_ : Bytes) (b : Nat) (t : Bytes)
    (hl : ∀ q ∈ from_, ¬ List.IsPrefix q (b :: t)) :
    ReplaceAllToOne (b :: t) from_ to_ = b :: ReplaceAllToOne t from_ to_ := by
  unfold ReplaceAllToOne
  apply replace_nomatch
  rw [lookup_pairs, find_none from_ _ hl]
  rfl

theorem rto_nil (from_ : List Bytes) (to_ : Bytes) (hne : ∀ p ∈ from_, p ≠ []) :
    ReplaceAllToOne [] from_ to_ = [] := by
  unfold ReplaceAllToOne
  apply replace_nil
  rw [lookup_pairs, find_none from_ []]
  · rfl
  · intro q hq hpre
    exact hne q hq (List.prefix_nil.mp hpre)

/-- C16: with non-empty patterns, a pattern that matches at the current position of the
scan is the one replaced there when no pattern listed before it matches, whatever the
patterns listed after it (also longer ones) do; where no pattern matches one byte is
copied; and listing a pattern a second time further down the list changes nothing. -/
theorem C16_replace_argument_order (from_ : List Bytes) (to_ s : Bytes)
    (hne : ∀ p ∈ from_, p ≠ []) :
    (∀ l1 p l2, from_ = l1 ++ p :: l2 → List.IsPrefix p s →
      (∀ q ∈ l1, ¬ List.IsPrefix q s) →
      ReplaceAllToOne s from_ to_ = to_ ++ ReplaceAllToOne (s.drop p.length) from_ to_) ∧
    ((∀ q ∈ from_, ¬ List.IsPrefix q s) → ∀ b t, s = b :: t →
      ReplaceAllToOne s from_ to_ = b :: ReplaceAllToOne t from_ to_) ∧
    (∀ l1 p l2 l3, from_ = l1 ++ p :: l2 ++ l3 →
      ReplaceAllToOne s (l1 ++ p :: l2 ++ p :: l3) to_ = ReplaceAllToOne s from_ to_) := by
  refine ⟨?_, ?_, ?_⟩
  · intro l1 p l2 hf hp hl
    exact rto_match from_ l1 l2 p to_ s hf (hne p (by simp [hf])) hp hl
  · intro hl b t hs
    subst hs
    exact rto_nomatch from_ to_ b t hl
  · intro l1 p l2 l3 hf
    subst hf
    unfold ReplaceAllToOne Replace
    apply replaceLoop_congr
    intro s pe
    unfold replacerLookup
    simp only [List.map_append, List.map_cons]
    exact find_dup _ _ _ _ _

/-- The witness of C16: `ReplaceAllToOne("abc", ["a", "ab"], "X") == "Xbc"` while
`ReplaceAllToOne("abc", ["ab", "a"], "X") == "Xc"`. -/
theorem C16_replace_argument_order_witness :
    (∀ p ∈ ([[0x61], [0x61, 0x62]] : List Bytes), p ≠ []) ∧
    ReplaceAllToOne [0x61, 0x62, 0x63] [[0x61], [0x61, 0x62]] [0x58] =
      [0x58] ++ ReplaceAllToOne (([0x61, 0x62, 0x63] : Bytes).drop ([0x61] : Bytes).length)
        [[0x61], [0x61, 0x62]] [0x58] ∧
    ReplaceAllToOne [0x61, 0x62, 0x63] [[0x61], [0x61, 0x62]] [0x58] = [0x58, 0x62, 0x63] ∧
    ReplaceAllToOne [0x61, 0x62, 0x63] [[0x61, 0x62], [0x61]] [0x58] = [0x58, 0x63] ∧
    ReplaceAllToOne [0x61, 0x62, 0x63] [[0x61], [0x61, 0x62], [0x61]] [0x58] =
      [0x58, 0x62, 0x63] :=
  ⟨by decide,
    (C16_replace_argument_order [[0x61], [0x61, 0x62]] [0x58] [0x61, 0x62, 0x63]
      (by decide)).1 [] [0x61] [[0x61, 0x62]] rfl ⟨[0x62, 0x63], rfl⟩ (by simp),
    by decide, by decide, by decide⟩

/-! ### A single pattern -/

theorem occursAt_zero (p s : Bytes) : OccursAt p s 0 ↔ List.IsPrefix p s := by
  unfold OccursAt
  rw [List.drop_zero]

theorem occursAt_succ (p : Bytes) (b : Nat) (t : Bytes) (k : Nat) :
    OccursAt p (b :: t) (k + 1) ↔ OccursAt p t k := by
  unfold OccursAt
  rw [List.drop_succ_cons]

/-- Text before the first occurrence of the pattern is copied. -/
theorem rto_single_skip (p to_ : Bytes) (g x : Bytes)
    (h : ∀ k, k < g.length → ¬ OccursAt p (g ++ x) k) :
    ReplaceAllToOne (g ++ x) [p] to_ = g ++ ReplaceAllToOne x [p] to_ := by
  induction g with
  | nil => rfl
  | cons b g ih =>
    have h0 : ¬ List.IsPrefix p (b :: (g ++ x)) := by
      have := h 0 (by simp)
      rwa [List.cons_append, occursAt_zero] at this
    rw [List.cons_append, rto_nomatch [p] to_ b (g ++ x) (by simpa using h0), ih]
    · rfl
    · intro k hk
      have := h (k + 1) (by simpa using hk)
      rwa [List.cons_append, occursAt_succ] at this

theorem rto_single_none (p to_ s : Bytes) (hp : p ≠ []) (h : ∀ k, ¬ OccursAt p s k) :
    ReplaceAllToOne s [p] to_ = s := by
  have := rto_single_skip p to_ s [] (by
    intro k _
    rw [List.append_nil]
    exact h k)
  rw [List.append_nil] at this
  rw [this, rto_nil [p] to_ (by simpa using hp), List.append_nil]

theorem rto_single_spec (p to_ : Bytes) (hp : p ≠ []) (n : Nat) :
    ∀ s : Bytes, s.length = n → ReplacedAll p to_ s (ReplaceAllToOne s [p] to_) := by
  induction n using Nat.strong_induction_on with
  | _ n ih =>
    intro s hn
    by_cases hocc : ∃ k, OccursAt p s k
    · classical
      have hk := Nat.find_spec hocc
      have hmin : ∀ k, k < Nat.find hocc → ¬ OccursAt p s k := fun k hk' => Nat.find_min hocc hk'
      generalize Nat.find hocc = k0 at hk hmin
      obtain ⟨rest, hrest⟩ := hk
      have hs : s = s.take k0 ++ p ++ rest := by
        rw [List.append_assoc, hrest, List.take_append_drop]
      have hk0 : k0 ≤ s.length := by
        by_contra hc
        rw [List.drop_of_length_le (by omega)] at hrest
        simp at hrest
        exact hp hrest.1
      have hgl : (s.take k0).length = k0 := by
        rw [List.length_take, Nat.min_eq_left hk0]
      have hplen : 1 ≤ p.length := by
        cases p with
        | nil => exact absurd rfl hp
        | cons x p => simp
      have hrl : rest.length < n := by
        have := congrArg List.length hs
        simp only [List.length_append, hgl] at this
        omega
      have hleft : ∀ k, k < (s.take k0).length → ¬ OccursAt p (s.take k0 ++ p ++ rest) k := by
        intro k hk
        rw [← hs]
        exact hmin k (by omega)
      have hR : ReplaceAllToOne s [p] to_ =
          s.take k0 ++ to_ ++ ReplaceAllToOne rest [p] to_ := by
        conv_lhs => rw [hs]
        rw [List.append_assoc, rto_single_skip p to_ (s.take k0) (p ++ rest)
          (by rw [← List.append_assoc]; exact hleft),
          rto_match [p] [] [] p to_ (p ++ rest) rfl hp (List.prefix_append p rest) (by simp),
          List.drop_left, List.append_assoc]
      rw [hR]
      conv =>
        arg 3
        rw [hs]
      exact ReplacedAll.step (s.take k0) rest _ hleft (ih rest.length hrl rest rfl)
    · have hno : ∀ k, ¬ OccursAt p s k := fun k hk => hocc ⟨k, hk⟩
      rw [rto_single_none p to_ s hp hno]
      exact ReplacedAll.done s hno

theorem occursAt_mid (p g rest : Bytes) : OccursAt p (g ++ p ++ rest) g.length := by
  unfold OccursAt
  rw [List.append_assoc, List.drop_left]
  exact List.prefix_append p rest

/-- The relation `ReplacedAll` determines the result. -/
theorem replacedAll_unique (p to_ : Bytes) (s o1 o2 : Bytes) (h1 : ReplacedAll p to_ s o1)
    (h2 : ReplacedAll p to_ s o2) : o1 = o2 := by
  induction h1 generalizing o2 with
  | done g h =>
    generalize hs : g = s' at h2
    cases h2 with
    | done g2 h2 => rfl
    | step g2 rest2 out2 hleft2 hr2 =>
      exact absurd (hs ▸ occursAt_mid p g2 rest2) (h _)
  | step g rest out hleft hr ih =>
    generalize hs : g ++ p ++ rest = s' at h2
    cases h2 with
    | done g2 h' =>
      exact absurd (hs ▸ occursAt_mid p g rest) (h' _)
    | step g2 rest2 out2 hleft2 hr2 =>
      have hlen : g.length = g2.length := by
        rcases Nat.lt_trichotomy g.length g2.length with hlt | heq | hgt
        · exact absurd (hs ▸ occursAt_mid p g rest) (hleft2 _ hlt)
        · exact heq
        · exact absurd (hs ▸ occursAt_mid p g2 rest2) (hleft _ hgt)
      rw [List.append_assoc, List.append_assoc] at hs
      obtain ⟨hg, hrest⟩ := List.append_inj hs hlen
      have hr' := List.append_cancel_left hrest
      subst hg
      subst hr'
      rw [ih out2 hr2]

/-- C15: for a non-empty pattern `p`, `ReplaceAllToOne(s, [p], to)` is `s` with every
non-overlapping occurrence of `p`, found scanning from left to right, replaced by `to` and
the text between the occurrences unchanged; if `p` does not occur in `s` the result
is `s`. -/
theorem C15_replace_single_pattern (s p to_ : Bytes) (hp : p ≠ []) :
    ReplacedAll p to_ s (ReplaceAllToOne s [p] to_) ∧
    ((∀ k, ¬ OccursAt p s k) → ReplaceAllToOne s [p] to_ = s) :=
  ⟨rto_single_spec p to_ hp s.length s rfl, rto_single_none p to_ s hp⟩

/-- The witness of C15: `ReplaceAllToOne("a-b-c", ["-"], "_") == "a_b_c"`. -/
theorem C15_replace_single_pattern_witness :
    ([0x2D] : Bytes) ≠ [] ∧
    ReplaceAllToOne [0x61, 0x2D, 0x62, 0x2D, 0x63] [[0x2D]] [0x5F] =
      [0x61, 0x5F, 0x62, 0x5F, 0x63] ∧
    ReplacedAll [0x2D] [0x5F] [0x61, 0x2D, 0x62, 0x2D, 0x63]
      (ReplaceAllToOne [0x61, 0x2D, 0x62, 0x2D, 0x63] [[0x2D]] [0x5F]) :=
  ⟨by decide, by decide,
    (C15_replace_single_pattern [0x61, 0x2D, 0x62, 0x2D, 0x63] [0x2D] [0x5F] (by decide)).1⟩

/-! ## Words that end in punctuation -/

theorem runes_nil : runes [] = [] := by decide

theorem runes_ne_nil (s : Bytes) (h : s ≠ []) : runes s ≠ [] := by
  intro h0
  have hl := runes_length s
  rw [h0, UTF8Len_eq] at hl
  have hf := runeBytes_flatten s
  have : runeBytes s = [] := List.length_eq_zero.mp hl.symm
  rw [this] at hf
  exact h hf.symm

theorem runes_append_ascii (t u : Bytes) (b : Nat) (hb : b < 0x80) :
    runes (t ++ b :: u) = runes t ++ b :: runes u := by
  have h := congrArg (List.map Prod.snd) (rangeAt_append_ascii t u b 0 hb)
  rw [rangeAt_map_snd, List.map_append, List.map_cons, rangeAt_map_snd, rangeAt_map_snd] at h
  exact h

/-- A string of ASCII bytes is its own sequence of code points. -/
theorem runes_of_ascii (p : Bytes) (h : ∀ b ∈ p, b < 128) : runes p = p := by
  induction p with
  | nil => exact runes_nil
  | cons b u ih =>
    have := runes_append_ascii [] u b (h b (by simp))
    rw [List.nil_append, runes_nil, List.nil_append] at this
    rw [this, ih (fun x hx => h x (by simp [hx]))]

theorem punct_bytes (p : Bytes) (hp : ∀ r ∈ runes p, IsWordPunct r) :
    (∀ b ∈ p, b < 128) ∧ runes p = p := by
  have h1 : ∀ b ∈ p, b < 128 := by
    rw [← runes_lt_128_iff]
    intro r hr
    have := hp r hr
    unfold IsWordPunct at this
    omega
  exact ⟨h1, runes_of_ascii p h1⟩

theorem runes_append_of_ascii (t p : Bytes) (h : ∀ b ∈ p, b < 128) :
    runes (t ++ p) = runes t ++ p := by
  cases p with
  | nil => simp
  | cons b u =>
    rw [runes_append_ascii t u b (h b (by simp)),
      runes_of_ascii u (fun x hx => h x (by simp [hx]))]

/-- A token followed by punctuation marks is a token. -/
theorem isToken_append_punct (T : UnicodeTables) (w p : Bytes) (hw : IsToken T w)
    (hp : ∀ r ∈ runes p, IsWordPunct r) : IsToken T (w ++ p) := by
  obtain ⟨hb, hrp⟩ := punct_bytes p hp
  obtain ⟨hne, hhead, hall⟩ := hw
  have hr := runes_append_of_ascii w p hb
  have hrw := runes_ne_nil w hne
  refine ⟨by simp [hne], ?_, ?_⟩
  · rw [hr]
    intro r hr'
    apply hhead r
    cases hrs : runes w with
    | nil => exact absurd hrs hrw
    | cons x xs =>
      rw [hrs] at hr'
      simpa using hr'
  · rw [hr]
    intro r hr'
    rcases List.mem_append.mp hr' with h | h
    · exact hall r h
    · right
      apply hp
      rw [hrp]
      exact h

/-- A token followed by one space: the space closes the word. -/
theorem words_token_space (T : UnicodeTables) (t : Bytes) (ht : IsToken T t) :
    Words T (t ++ [0x20]) = .ok [t] := by
  obtain ⟨q, hq, hl⟩ := wordsLoop_token T (t ++ [0x20]) false t ht [] 0 0
  have hstep := wordsStep_space T [] t [] [] q 0 hq
  simp only [List.nil_append, List.length_nil, Nat.zero_add, Nat.cast_zero] at hstep
  unfold Words
  rw [words_eq_wordsFrom, rangeStr_eq_rangeAt, rangeAt_append_ascii t [] 0x20 0 (by omega),
    rangeAt_nil]
  unfold wordsFrom
  rw [wordsLoop_append, Nat.zero_add]
  simp only [Nat.cast_zero] at hl
  rw [hl]
  simp only [wordsLoop, hstep]
  rfl

/-- C18: a run of `'`, `-`, `_` after a token, followed by end of input or by a space, is
part of the emitted word: `Words(w + p) == [w + p]` and `Words(w + p + " ") == [w + p]`. -/
theorem C18_words_trailing_punct (T : UnicodeTables) (w p : Bytes) (hw : IsToken T w)
    (hp : ∀ r ∈ runes p, IsWordPunct r) :
    Words T (w ++ p) = .ok [w ++ p] ∧ Words T (w ++ p ++ [0x20]) = .ok [w ++ p] := by
  have ht := isToken_append_punct T w p hw hp
  refine ⟨?_, words_token_space T (w ++ p) ht⟩
  have := words_tokens_from T [w ++ p] (by simp) (by simpa using ht) [] [] 0
  simp only [List.nil_append, List.length_nil, joinSpace] at this
  unfold Words
  rw [words_eq_wordsFrom, rangeStr_eq_rangeAt, this]
  rfl

/-- The witness of C18: `Words("it's--") == ["it's--"]` and
`Words("it's-- x") == ["it's--", "x"]`. -/
theorem C18_words_trailing_punct_witness :
    IsToken latin1Tables [0x69, 0x74, 0x27, 0x73] ∧
    (∀ r ∈ runes [0x2D, 0x2D], IsWordPunct r) ∧
    (Words latin1Tables ([0x69, 0x74, 0x27, 0x73] ++ [0x2D, 0x2D]) =
        .ok [[0x69, 0x74, 0x27, 0x73] ++ [0x2D, 0x2D]] ∧
      Words latin1Tables ([0x69, 0x74, 0x27, 0x73] ++ [0x2D, 0x2D] ++ [0x20]) =
        .ok [[0x69, 0x74, 0x27, 0x73] ++ [0x2D, 0x2D]]) ∧
    Words latin1Tables [0x69, 0x74, 0x27, 0x73, 0x2D, 0x2D, 0x20, 0x78] =
      .ok [[0x69, 0x74, 0x27, 0x73, 0x2D, 0x2D], [0x78]] :=
  ⟨by decide, by decide,
    C18_words_trailing_punct latin1Tables [0x69, 0x74, 0x27, 0x73] [0x2D, 0x2D] (by decide)
      (by decide),
    by decide⟩

/-! ## Every word is a token -/

theorem runeCat_cases (T : UnicodeTables) (r : Nat) :
    (runeCat T r = wordRune ∧ IsWordChar T r) ∨
    (runeCat T r = wordPuncRune ∧ IsWordPunct r) ∨
    runeCat T r = nonWordRune := by
  by_cases hw : IsWordChar T r
  · exact Or.inl ⟨runeCat_of_wordChar T r hw, hw⟩
  · by_cases hp : IsWordPunct r
    · rcases runeCat_of_token_rune T r (Or.inr hp) with h | h
      · unfold IsWordChar at hw
        unfold runeCat at h
        have e1 : (IsLetter T r || IsDigit T r) = false := by
          rcases hl : IsLetter T r <;> rcases hd : IsDigit T r <;> simp_all
        rw [e1] at h
        simp only [Bool.false_eq_true, if_false] at h
        split at h <;> exact absurd h (by decide)
      · exact Or.inr (Or.inl ⟨h, hp⟩)
    · exact Or.inr (Or.inr (runeCat_of_separator T r ⟨hw, hp⟩))

/-- Iteration `k` of the range loop. -/
theorem rangeStr_take_succ (s : Bytes) (k : Nat) (hk : k < UTF8Len s) :
    ∃ r, (runes s)[k]? = some r ∧
      (rangeStr s).take (k + 1) = (rangeStr s).take k ++ [(runeOffset s k, r)] := by
  have hl : k < (rangeStr s).length := hk
  have ho := rangeOffsets_get s k hk
  unfold rangeOffsets at ho
  rw [List.getElem?_map, List.getElem?_eq_getElem hl] at ho
  simp only [Option.map_some', Option.some.injEq] at ho
  refine ⟨((rangeStr s)[k]).2, ?_, ?_⟩
  · unfold runes
    rw [List.getElem?_map, List.getElem?_eq_getElem hl]
    rfl
  · rw [List.take_succ, List.getElem?_eq_getElem hl, ← ho]
    rfl

theorem runes_slice_succ (s : Bytes) (j k r : Nat) (hjk : j ≤ k) (hr : (runes s)[k]? = some r) :
    runes (runeSlice s j (k + 1)) = runes (runeSlice s j k) ++ [r] := by
  rw [runes_runeSlice, runes_runeSlice, show k + 1 - j = (k - j) + 1 by omega, List.take_succ,
    List.getElem?_drop, show j + (k - j) = k by omega, hr]
  rfl

theorem isToken_start (T : UnicodeTables) (s : Bytes) (k r : Nat) (hk : k < UTF8Len s)
    (hr : (runes s)[k]? = some r) (hw : IsWordChar T r) : IsToken T (runeSlice s k (k + 1)) := by
  have h := runes_slice_succ s k k r (le_refl k) hr
  have h0 : runes (runeSlice s k k) = [] := by
    rw [runes_runeSlice, Nat.sub_self, List.take_zero]
  rw [h0, List.nil_append] at h
  refine ⟨runeSlice_ne_nil s k (k + 1) (by omega) (by omega), ?_, ?_⟩
  · rw [h]
    intro x hx
    simp only [List.head?_cons, Option.mem_def, Option.some.injEq] at hx
    exact hx ▸ hw
  · rw [h]
    intro x hx
    simp only [List.mem_singleton] at hx
    exact Or.inl (hx ▸ hw)

theorem isToken_extend (T : UnicodeTables) (s : Bytes) (j k r : Nat) (hjk : j ≤ k)
    (hk : k < UTF8Len s) (hr : (runes s)[k]? = some r) (ht : IsToken T (runeSlice s j k))
    (hc : IsWordChar T r ∨ IsWordPunct r) : IsToken T (runeSlice s j (k + 1)) := by
  obtain ⟨hne, hhead, hall⟩ := ht
  have h := runes_slice_succ s j k r hjk hr
  have hrn := runes_ne_nil _ hne
  refine ⟨runeSlice_ne_nil s j (k + 1) (by omega) (by omega), ?_, ?_⟩
  · rw [h]
    intro x hx
    apply hhead x
    cases hrs : runes (runeSlice s j k) with
    | nil => exact absurd hrs hrn
    | cons y ys =>
      rw [hrs] at hx
      simpa using hx
  · rw [h]
    intro x hx
    rcases List.mem_append.mp hx with h1 | h1
    · exact hall x h1
    · simp only [List.mem_singleton] at h1
      exact h1 ▸ hc

theorem wordsStep_inv (T : UnicodeTables) (s : Bytes) (k r : Nat) (hk : k < UTF8Len s)
    (hr : (runes s)[k]? = some r) (st : WordsState) (hinv : WordsInv T s k st) :
    ∃ st1, wordsStep T s false st (runeOffset s k, r) = .ok st1 ∧ WordsInv T s (k + 1) st1 := by
  obtain ⟨harr, hopen⟩ := hinv
  unfold wordsStep
  simp only []
  rcases hopen with hclosed | ⟨j, hj, hls, htok, hpc⟩
  · -- outside a word
    by_cases h1 : runeCat T r = wordRune ∧ st.prevCat ≠ wordRune ∧ st.lastStart = -1
    · rw [if_pos h1]
      refine ⟨_, rfl, harr, Or.inr ⟨k, by omega, rfl, ?_, Or.inl h1.1⟩⟩
      rcases runeCat_cases T r with ⟨_, hw⟩ | ⟨h2, _⟩ | h2
      · exact isToken_start T s k r hk hr hw
      · rw [h1.1] at h2; exact absurd h2 (by decide)
      · rw [h1.1] at h2; exact absurd h2 (by decide)
    · rw [if_neg h1, if_neg (by rw [hclosed]; omega)]
      exact ⟨_, rfl, harr, Or.inl hclosed⟩
  · -- inside a word that starts at code point `j`
    have hge : st.lastStart ≥ 0 := by omega
    rw [if_neg (by omega)]
    rcases runeCat_cases T r with ⟨hc, hw⟩ | ⟨hc, hp⟩ | hc
    · rw [if_neg (by rw [hc]; rintro ⟨h, _⟩; exact absurd h (by decide))]
      exact ⟨_, rfl, harr, Or.inr ⟨j, by omega, hls,
        isToken_extend T s j k r (by omega) hk hr htok (Or.inl hw), Or.inl hc⟩⟩
    · rw [if_neg (by rw [hc]; rintro ⟨h, _⟩; exact absurd h (by decide))]
      exact ⟨_, rfl, harr, Or.inr ⟨j, by omega, hls,
        isToken_extend T s j k r (by omega) hk hr htok (Or.inr hp), Or.inr hc⟩⟩
    · rw [if_pos ⟨hc, hpc, hge⟩]
      simp only [Bool.not_false, if_true]
      rw [hls, sliceFromTo_runeOffset s j k (by omega)]
      refine ⟨_, rfl, ?_, Or.inl rfl⟩
      intro w hw
      rcases List.mem_append.mp hw with h | h
      · exact harr w h
      · simp only [List.mem_singleton] at h
        exact h ▸ htok

theorem wordsLoop_inv (T : UnicodeTables) (s : Bytes) (k : Nat) (hk : k ≤ UTF8Len s) :
    ∃ st, wordsLoop T s false ((rangeStr s).take k) ⟨[], nonWordRune, -1, 0⟩ = .ok st ∧
      WordsInv T s k st := by
  induction k with
  | zero =>
    refine ⟨_, rfl, ?_, Or.inl rfl⟩
    intro w hw
    simp at hw
  | succ k ih =>
    obtain ⟨st, hl, hinv⟩ := ih (by omega)
    obtain ⟨r, hr, htake⟩ := rangeStr_take_succ s k (by omega)
    obtain ⟨st1, hs1, hinv1⟩ := wordsStep_inv T s k r (by omega) hr st hinv
    refine ⟨st1, ?_, hinv1⟩
    rw [htake, wordsLoop_append, hl]
    simp only [wordsLoop, hs1]

/-- C17: every element of `Words(s)` is non-empty, its first code point is a letter or a
digit, and none of its code points is a separator. -/
theorem C17_words_are_tokens (T : UnicodeTables) (s : Bytes) :
    ∃ arr, Words T s = .ok arr ∧
      ∀ w ∈ arr, w ≠ [] ∧ (∃ r, (runes w).head? = some r ∧ IsWordChar T r) ∧
        ∀ r ∈ runes w, ¬ IsSeparator T r := by
  have key : ∃ arr, Words T s = .ok arr ∧ ∀ w ∈ arr, IsToken T w := by
    obtain ⟨st, hl, harr, hopen⟩ := wordsLoop_inv T s (UTF8Len s) (le_refl _)
    have hfull : (rangeStr s).take (UTF8Len s) = rangeStr s := List.take_of_length_le (le_refl _)
    rw [hfull] at hl
    unfold Words
    rw [words_eq_wordsFrom]
    unfold wordsFrom wordsFinish
    rw [hl]
    simp only []
    rcases hopen with hclosed | ⟨j, hj, hls, htok, _⟩
    · rw [if_neg (by rw [hclosed]; omega)]
      exact ⟨st.arr, rfl, harr⟩
    · rw [if_pos (by omega), hls, sliceFrom_runeOffset, ← runeSlice_count s j _ (le_refl _)]
      refine ⟨_, rfl, ?_⟩
      intro w hw
      rcases List.mem_append.mp hw with h | h
      · exact harr w h
      · simp only [List.mem_singleton] at h
        exact h ▸ htok
  obtain ⟨arr, harr, htok⟩ := key
  refine ⟨arr, harr, ?_⟩
  intro w hw
  obtain ⟨hne, hhead, hall⟩ := htok w hw
  refine ⟨hne, ?_, ?_⟩
  · cases hrs : runes w with
    | nil => exact absurd hrs (runes_ne_nil w hne)
    | cons x xs =>
      refine ⟨x, rfl, hhead x ?_⟩
      rw [hrs]
      rfl
  · intro r hr hsep
    rcases hall r hr with h | h
    · exact hsep.1 h
    · exact hsep.2 h

end Strutil
